import Mathlib

/-!
Verification development for the gocache in-process key-value cache
(hash index + intrusive doubly-linked eviction list, TTL expiration,
snapshot persistence).

The store is embedded shallowly.  Entry objects live in an explicit heap
(a finite map from allocation ids to entry records) so that the source's
pointer manipulation is represented exactly: a Go pointer is `Option Nat`
(with `none` playing the role of `nil`), and every operation that can
dereference a nil pointer is `Option`-valued, `none` meaning a runtime
panic.  The hash index is an association list from keys to allocation
ids.  Machine time instants and durations are `Int` (nanoseconds), with
the source's sentinel `NoExpiration = -1`.
-/

namespace Gocache

/-- Eviction policies: the closed two-variant enumeration from the source. -/
inductive EvictionPolicy where
  | FirstInFirstOut : EvictionPolicy
  | LeastRecentlyUsed : EvictionPolicy
deriving DecidableEq

/-- The source constant NoExpiration = -1 (a time.Duration / UnixNano sentinel). -/
def NoExpiration : Int := -1

/-- The source constant NoMaxSize = 0: no maximum number of entries, no eviction. -/
def NoMaxSize : Int := 0

/-- The source constant DefaultMaxSize = 1000. -/
def DefaultMaxSize : Int := 1000

/-- Values are opaque payloads for the cache; the embedding fixes them to Int
(the store never inspects values, so any type with decidable equality serves). -/
abbrev Val := Int

/-- The data of one Entry object: key, value, expiration (UnixNano or the
NoExpiration sentinel), relevantTimestamp, and the two intrusive list links
(previous / next), each an optional allocation id standing for a pointer. -/
structure EntryData where
  key : String
  value : Val
  expiration : Int
  relevantTimestamp : Int
  previous : Option Nat
  next : Option Nat
deriving DecidableEq

/-- The cache state: configuration, the object heap (allocation id to entry
record), the hash index (key to allocation id), the head and tail pointers,
and the next fresh allocation id. -/
structure Cache where
  maxSize : Int
  evictionPolicy : EvictionPolicy
  heap : List (Nat × EntryData)
  entries : List (String × Nat)
  head : Option Nat
  tail : Option Nat
  freshId : Nat
deriving DecidableEq

/-- Look up an allocation id in a heap (first matching binding). -/
def heapFind : List (Nat × EntryData) → Nat → Option EntryData
  | [], _ => none
  | (j, d) :: rest, i => if j = i then some d else heapFind rest i

/-- Update the entry record stored at an allocation id (models a write
through a non-nil pointer; ids are unique in a well-formed heap). -/
def heapSet : List (Nat × EntryData) → Nat → (EntryData → EntryData) → List (Nat × EntryData)
  | [], _, _ => []
  | (j, d) :: rest, i, f =>
    if j = i then (j, f d) :: heapSet rest i f else (j, d) :: heapSet rest i f

/-- Look up a key in the hash index. -/
def idxFind : List (String × Nat) → String → Option Nat
  | [], _ => none
  | (k', e) :: rest, k => if k' = k then some e else idxFind rest k

/-- Remove a key's binding from the hash index (models Go map delete). -/
def idxErase : List (String × Nat) → String → List (String × Nat)
  | [], _ => []
  | (k', e) :: rest, k =>
    if k' = k then idxErase rest k else (k', e) :: idxErase rest k

/-- Dereference the heap at an id. -/
def Cache.heapGet (c : Cache) (i : Nat) : Option EntryData := heapFind c.heap i

/-- Write through a pointer: update the record at an id. -/
def Cache.heapModify (c : Cache) (i : Nat) (f : EntryData → EntryData) : Cache :=
  { c with heap := heapSet c.heap i f }

/-- Index size, i.e. len(cache.entries). -/
def Cache.count (c : Cache) : Nat := c.entries.length

/-- Modelled from the spec: the Entry type's isExpired(now) method lives in a
source file (entry.go) that is not available; per the spec it returns true iff
the expiration is not the "never expires" sentinel and now is at or past the
expiration instant. -/
def EntryData.expired (d : EntryData) (now : Int) : Bool :=
  decide (d.expiration ≠ NoExpiration ∧ d.expiration ≤ now)

/-- A fresh cache as built by NewCache (DefaultMaxSize, FIFO policy, empty
index, nil head and tail), generalized over the configuration set through
WithMaxSize / WithEvictionPolicy. -/
def Cache.new (maxSize : Int) (policy : EvictionPolicy) : Cache :=
  { maxSize := maxSize
    evictionPolicy := policy
    heap := []
    entries := []
    head := none
    tail := none
    freshId := 0 }

/-- removeExistingEntryReferences: repair the neighbours' links and the head
and tail pointers so that the entry at id e is no longer referenced by the
list; the entry's own links are not cleared (as in the source).  Statement
order follows the source exactly, re-reading fields where the source does. -/
def removeExistingEntryReferences (c : Cache) (e : Nat) : Option Cache := do
  let c1 ←
    if c.tail = some e then do
      let d ← c.heapGet e
      pure { c with tail := d.next }
    else pure c
  let c2 ←
    if c1.head = some e then do
      let d ← c1.heapGet e
      pure { c1 with head := d.previous }
    else pure c1
  let d ← c2.heapGet e
  let c3 :=
    match d.previous with
    | some p => c2.heapModify p (fun pd => { pd with next := d.next })
    | none => c2
  let d2 ← c3.heapGet e
  let c4 :=
    match d2.next with
    | some n => c3.heapModify n (fun nd => { nd with previous := d2.previous })
    | none => c3
  pure c4

/-- moveExistingEntryToHead: unlink the entry unless it is the sole element,
then, if it is not already the head, attach it after the current head.  The
write cache.head.next = entry dereferences the head pointer, so the result is
none (panic) when the head is nil at that point. -/
def moveExistingEntryToHead (c : Cache) (e : Nat) : Option Cache := do
  let c1 ←
    if ¬(c.head = some e ∧ c.tail = some e) then
      removeExistingEntryReferences c e
    else pure c
  if c1.head = some e then pure c1
  else do
    let c2 := c1.heapModify e (fun d => { d with previous := c1.head, next := none })
    match c1.head with
    | none => none
    | some h =>
      let c3 := c2.heapModify h (fun hd => { hd with next := some e })
      pure { c3 with head := some e }

/-- evict: removes the tail from the cache.  Mirrors the source: no-op when
the tail is nil or the index is empty; otherwise deletes the tail's key from
the index, advances the tail pointer to tail.next, and then writes
cache.tail.previous = nil through the new tail pointer - which is a nil
dereference (none) when the evicted entry was the last one. -/
def evict (c : Cache) : Option Cache :=
  if c.tail = none ∨ c.entries.length = 0 then some c
  else do
    let t ← c.tail
    let d ← c.heapGet t
    let c1 := { c with entries := idxErase c.entries d.key }
    let c2 := { c1 with tail := d.next }
    let t2 ← c2.tail
    pure (c2.heapModify t2 (fun td => { td with previous := none }))

/-- The tail segment of SetWithTTL: write the entry's expiration from the
ttl, then run the max-size eviction check. -/
def finishSet (c : Cache) (e : Nat) (ttl now : Int) : Option Cache :=
  let c1 :=
    if ttl ≠ NoExpiration then c.heapModify e (fun d => { d with expiration := now + ttl })
    else c.heapModify e (fun d => { d with expiration := NoExpiration })
  if c1.maxSize = NoMaxSize then some c1
  else if c1.maxSize < (c1.entries.length : Int) then evict c1
  else some c1

/-- SetWithTTL: creates the entry if absent (skipping creation entirely for a
negative ttl that is not the NoExpiration sentinel), or rewrites the value and
moves the entry to the head if present; then sets the expiration and evicts
once if a maximum size is configured and exceeded.  now is the current
instant in UnixNano. -/
def setWithTTL (c : Cache) (key : String) (value : Val) (ttl now : Int) : Option Cache := do
  match idxFind c.entries key with
  | none =>
    if ttl ≠ NoExpiration ∧ ttl < 0 then pure c
    else
      let e := c.freshId
      let d : EntryData :=
        { key := key, value := value, expiration := 0,
          relevantTimestamp := now, previous := c.head, next := none }
      let c1 := { c with heap := (e, d) :: c.heap, freshId := c.freshId + 1 }
      let c2 :=
        match c1.head with
        | none => { c1 with tail := some e }
        | some h => c1.heapModify h (fun hd => { hd with next := some e })
      let c3 := { c2 with head := some e, entries := (key, e) :: c2.entries }
      finishSet c3 e ttl now
  | some e =>
    let c1 := c.heapModify e (fun d => { d with value := value })
    let c2 ← moveExistingEntryToHead c1 e
    finishSet c2 e ttl now

/-- Set: SetWithTTL with the NoExpiration sentinel. -/
def set (c : Cache) (key : String) (value : Val) (now : Int) : Option Cache :=
  setWithTTL c key value NoExpiration now

/-- Get: index lookup, expiration check, and - under the LeastRecentlyUsed
policy - the Accessed() timestamp refresh and the move of the entry to the
head when it is not the head already.  Returns the value-and-found result
together with the new state.  The relevantTimestamp refresh is modelled from
the spec: the Entry type's Accessed() method lives in the unavailable
entry.go; per the spec, under LRU a successful read makes the entry the most
recently relevant, which is recorded in relevantTimestamp. -/
def get (c : Cache) (key : String) (now : Int) : Option (Option Val × Cache) := do
  match idxFind c.entries key with
  | none => pure (none, c)
  | some e => do
    let d ← c.heapGet e
    if d.expired now then pure (none, c)
    else
      if c.evictionPolicy = EvictionPolicy.LeastRecentlyUsed then do
        let c1 := c.heapModify e (fun x => { x with relevantTimestamp := now })
        if c1.head = some e then do
          let d1 ← c1.heapGet e
          pure (some d1.value, c1)
        else do
          let c2 ← moveExistingEntryToHead c1 e
          let d2 ← c2.heapGet e
          pure (some d2.value, c2)
      else pure (some d.value, c)

/-- The two phases of Get under the LeastRecentlyUsed policy, split at the
point where the source releases the read lock after the index lookup: given
the entry id e obtained by a lookup that happened earlier (possibly against a
state that has since changed), run the remainder of Get - the Accessed()
refresh, the head check, and the exclusive-section relink. -/
def getLruPostLookup (c : Cache) (e : Nat) (now : Int) : Option Cache :=
  let c1 := c.heapModify e (fun x => { x with relevantTimestamp := now })
  if c1.head = some e then some c1
  else moveExistingEntryToHead c1 e

/-- Delete: remove the key's entry from both the list and the index;
returns whether the key existed. -/
def delete (c : Cache) (key : String) : Option (Bool × Cache) := do
  match idxFind c.entries key with
  | none => pure (false, c)
  | some e => do
    let c1 ← removeExistingEntryReferences c e
    pure (true, { c1 with entries := idxErase c1.entries key })

/-- The result of TTL: the distinct error values ErrKeyDoesNotExist and
ErrKeyHasNoExpiration, or a remaining duration. -/
inductive TTLResult where
  | keyDoesNotExist : TTLResult
  | keyHasNoExpiration : TTLResult
  | duration : Int → TTLResult
deriving DecidableEq

/-- TTL: ErrKeyDoesNotExist for an absent key, ErrKeyHasNoExpiration for a
key with the NoExpiration sentinel, ErrKeyDoesNotExist again when the time
until expiration is negative (already expired), and the remaining duration
otherwise. -/
def ttl (c : Cache) (key : String) (now : Int) : Option TTLResult := do
  match idxFind c.entries key with
  | none => pure TTLResult.keyDoesNotExist
  | some e => do
    let d ← c.heapGet e
    if d.expiration = NoExpiration then pure TTLResult.keyHasNoExpiration
    else if d.expiration - now < 0 then pure TTLResult.keyDoesNotExist
    else pure (TTLResult.duration (d.expiration - now))

/-- Timestamp order on (id, entry) pairs: ascending relevantTimestamp,
oldest first. -/
def tsLe (p q : Nat × EntryData) : Prop :=
  p.2.relevantTimestamp ≤ q.2.relevantTimestamp

instance : DecidableRel tsLe := fun p q => by unfold tsLe; infer_instance

instance : IsTotal (Nat × EntryData) tsLe :=
  ⟨fun p q => Int.le_total p.2.relevantTimestamp q.2.relevantTimestamp⟩

instance : IsTrans (Nat × EntryData) tsLe :=
  ⟨fun _ _ _ h h' => le_trans h h'⟩

/-- Sort (id, entry) pairs ascending by relevantTimestamp, oldest first
(the source calls sort.Slice with a Before comparison; any correct sort by
timestamp is a faithful model of it). -/
def sortByTs : List (Nat × EntryData) → List (Nat × EntryData) :=
  List.insertionSort tsLe

/-- The (id, entry) pairs currently reachable from the index, in index
order (Go map iteration order is arbitrary; the relink below sorts, so the
collection order is immaterial for the sorted result). -/
def indexPairs (c : Cache) : List (Nat × EntryData) :=
  c.entries.filterMap (fun p => (c.heapGet p.2).map (fun d => (p.2, d)))

/-- gob-decode the snapshot map into the existing index: for each decoded
record a fresh Entry object is allocated with nil links (the link fields are
unexported and are not in the snapshot) and the key's index binding is
overwritten; bindings for keys absent from the snapshot are left in place. -/
def decodeInto (c : Cache) (ds : List (String × EntryData)) : Cache :=
  ds.foldl
    (fun acc kv =>
      { acc with
        heap := (acc.freshId, { kv.2 with key := kv.1, previous := none, next := none }) :: acc.heap
        entries := (kv.1, acc.freshId) :: idxErase acc.entries kv.1
        freshId := acc.freshId + 1 })
    c

/-- The relink loop of ReadFromFile: walk the sorted entries oldest first;
the first becomes the tail (and momentarily the head), each subsequent entry
is attached after the previous one and becomes the head.  As in the source,
the first entry's previous field and the last entry's next field are not
written. -/
def relinkStep (acc : Cache × Option Nat) (e : Nat) : Cache × Option Nat :=
  match acc.2 with
  | none => ({ acc.1 with tail := some e, head := some e }, some e)
  | some p =>
    let c1 := acc.1.heapModify p (fun pd => { pd with next := some e })
    let c2 := c1.heapModify e (fun ed => { ed with previous := some p })
    ({ c2 with head := some e }, some e)

/-- Relink the whole id list oldest-to-newest (tail to head). -/
def relinkAll (c : Cache) (ids : List Nat) : Cache :=
  (ids.foldl relinkStep (c, none)).1

/-- The post-restore eviction loop: evict until the index size is within
MaxSize, counting evictions.  The fuel argument (instantiated with the index
size) bounds the recursion; exhausting it models the source's divergence when
MaxSize is negative and evict stops making progress, and a panicking evict
propagates as none. -/
def evictUntil : Cache → Nat → Option (Nat × Cache)
  | c, fuel =>
    if c.maxSize < (c.entries.length : Int) then
      match fuel with
      | 0 => none
      | fuel' + 1 => do
        let c' ← evict c
        let (n, c'') ← evictUntil c' fuel'
        pure (n + 1, c'')
    else some (0, c)

/-- ReadFromFile after the file has been read: the decoder's outcome is
passed in (none = decode failure, in which case the source returns the error
with the state untouched; some ds = the decoded key-to-record map).  On
success: merge into the index, collect and sort by relevantTimestamp, relink
oldest-to-newest, then evict down to MaxSize if one is configured, returning
the number of evictions. -/
def readFromFile (c : Cache) (decoded : Option (List (String × EntryData))) :
    Option (Except Unit Nat × Cache) :=
  match decoded with
  | none => some (Except.error (), c)
  | some ds => do
    let c1 := decodeInto c ds
    let ids := (sortByTs (indexPairs c1)).map Prod.fst
    let c2 := relinkAll c1 ids
    if c2.maxSize = NoMaxSize then pure (Except.ok 0, c2)
    else do
      let (n, c3) ← evictUntil c2 c2.entries.length
      pure (Except.ok n, c3)

/-! ## Structural invariant

A cache state is well formed with respect to a list of allocation ids
(tail first, head last) when: the ids are distinct; the tail and head
pointers are the first and last of the list (nil when empty); the stored
previous/next links realize exactly this chain; and the index contains one
binding per chain element, keyed by the entry's stored key.  This is the
invariant of spec section 3 (index and list contain the same entries, head
and tail nil iff empty, unique keys). -/

/-- The first element of an id list as a pointer, with a fallback. -/
def headOr (l : List Nat) (alt : Option Nat) : Option Nat :=
  match l with
  | [] => alt
  | x :: _ => some x

/-- The last element of an id list as a pointer, with a fallback. -/
def lastOr : List Nat → Option Nat → Option Nat
  | [], alt => alt
  | x :: rest, _ => lastOr rest (some x)

/-- seg c prev l nxt: the heap cells of l form a doubly-linked segment whose
first cell's previous field is prev, whose consecutive cells point at each
other, and whose last cell's next field is nxt. -/
def seg (c : Cache) : Option Nat → List Nat → Option Nat → Bool
  | _, [], _ => true
  | prev, e :: rest, nxt =>
    match c.heapGet e with
    | none => false
    | some d =>
      decide (d.previous = prev) && decide (d.next = headOr rest nxt) && seg c (some e) rest nxt

/-- The non-link fields of an entry record (key, value, expiration,
relevantTimestamp). -/
def stripLinks (d : EntryData) : String × Val × Int × Int :=
  (d.key, d.value, d.expiration, d.relevantTimestamp)

/-- Two states agree on every entry record up to link fields. -/
def sameData (c c' : Cache) : Prop :=
  ∀ i, (c'.heapGet i).map stripLinks = (c.heapGet i).map stripLinks

/-- The structural invariant of the cache with respect to the chain ids
(tail first, head last). -/
def Wf (c : Cache) (ids : List Nat) : Prop :=
  ids.Nodup ∧
  c.tail = headOr ids none ∧
  c.head = lastOr ids none ∧
  seg c none ids none = true ∧
  c.entries.length = ids.length ∧
  (c.entries.map Prod.fst).Nodup ∧
  (∀ p ∈ c.entries, p.2 ∈ ids ∧ (c.heapGet p.2).map EntryData.key = some p.1) ∧
  (∀ e ∈ ids, ((c.heapGet e).map EntryData.key).bind (idxFind c.entries) = some e) ∧
  (∀ p ∈ c.heap, p.1 < c.freshId) ∧
  (c.heap.map Prod.fst).Nodup ∧
  0 ≤ c.maxSize

instance (c : Cache) (ids : List Nat) : Decidable (Wf c ids) := by
  unfold Wf; infer_instance

/-! ## Lemmas about the heap and index helpers -/

theorem heapFind_heapSet_self (h : List (Nat × EntryData)) (i : Nat) (f : EntryData → EntryData) :
    heapFind (heapSet h i f) i = (heapFind h i).map f := by
  induction h with
  | nil => rfl
  | cons q rest ih =>
    by_cases hq : q.1 = i
    · simp [heapSet, heapFind, hq]
    · simp [heapSet, heapFind, hq, ih]

theorem heapFind_heapSet_ne (h : List (Nat × EntryData)) (i j : Nat) (f : EntryData → EntryData)
    (hne : j ≠ i) : heapFind (heapSet h i f) j = heapFind h j := by
  induction h with
  | nil => rfl
  | cons q rest ih =>
    by_cases hq : q.1 = i
    · simp [heapSet, heapFind, hq, Ne.symm hne, hne, ih]
    · by_cases hj : q.1 = j <;> simp [heapSet, heapFind, hq, hj, hne, ih]

theorem heapSet_map_fst (h : List (Nat × EntryData)) (i : Nat) (f : EntryData → EntryData) :
    (heapSet h i f).map Prod.fst = h.map Prod.fst := by
  induction h with
  | nil => rfl
  | cons q rest ih =>
    by_cases hq : q.1 = i <;> simp [heapSet, hq, ih]

theorem heapFind_mem_fst (h : List (Nat × EntryData)) (i : Nat) (d : EntryData)
    (hf : heapFind h i = some d) : i ∈ h.map Prod.fst := by
  induction h with
  | nil => simp [heapFind] at hf
  | cons q rest ih =>
    by_cases hq : q.1 = i
    · simp [hq]
    · simp [heapFind, hq] at hf
      simp [ih hf]

theorem heapFind_cons (q : Nat × EntryData) (h : List (Nat × EntryData)) (i : Nat) :
    heapFind (q :: h) i = if q.1 = i then some q.2 else heapFind h i := rfl

theorem heapGet_modify_self (c : Cache) (i : Nat) (f : EntryData → EntryData) :
    (c.heapModify i f).heapGet i = (c.heapGet i).map f :=
  heapFind_heapSet_self c.heap i f

theorem heapGet_modify_ne (c : Cache) (i j : Nat) (f : EntryData → EntryData) (hne : j ≠ i) :
    (c.heapModify i f).heapGet j = c.heapGet j :=
  heapFind_heapSet_ne c.heap i j f hne

theorem idxFind_erase_self (l : List (String × Nat)) (k : String) :
    idxFind (idxErase l k) k = none := by
  induction l with
  | nil => rfl
  | cons q rest ih =>
    by_cases hq : q.1 = k <;> simp [idxErase, idxFind, hq, ih]

theorem idxFind_erase_ne (l : List (String × Nat)) (k k' : String) (hne : k' ≠ k) :
    idxFind (idxErase l k) k' = idxFind l k' := by
  induction l with
  | nil => rfl
  | cons q rest ih =>
    by_cases hq : q.1 = k
    · simp [idxErase, idxFind, hq, Ne.symm hne, hne, ih]
    · by_cases hk : q.1 = k' <;> simp [idxErase, idxFind, hq, hk, hne, ih]

theorem idxErase_of_find_none (l : List (String × Nat)) (k : String)
    (h : idxFind l k = none) : idxErase l k = l := by
  induction l with
  | nil => rfl
  | cons q rest ih =>
    by_cases hq : q.1 = k
    · simp [idxFind, hq] at h
    · simp [idxFind, hq] at h
      simp [idxErase, hq, ih h]

theorem idxErase_sublist (l : List (String × Nat)) (k : String) : (idxErase l k).Sublist l := by
  induction l with
  | nil => simp [idxErase]
  | cons q rest ih =>
    by_cases hq : q.1 = k
    · simp [idxErase, hq]
      exact ih.cons q
    · simpa [idxErase, hq] using ih.cons₂ q

theorem idxErase_eq_filter (l : List (String × Nat)) (k : String) :
    idxErase l k = l.filter (fun p => decide (p.1 ≠ k)) := by
  induction l with
  | nil => rfl
  | cons q rest ih =>
    by_cases hq : q.1 = k <;> simp [idxErase, List.filter_cons, hq, ih]

theorem mem_idxErase (l : List (String × Nat)) (k : String) (p : String × Nat) :
    p ∈ idxErase l k ↔ p ∈ l ∧ p.1 ≠ k := by
  simp [idxErase_eq_filter, List.mem_filter]

theorem idxFind_mem (l : List (String × Nat)) (k : String) (e : Nat)
    (h : idxFind l k = some e) : (k, e) ∈ l := by
  induction l with
  | nil => simp [idxFind] at h
  | cons q rest ih =>
    obtain ⟨k', e'⟩ := q
    by_cases hq : k' = k
    · simp only [idxFind, if_pos hq] at h
      subst hq
      simp [Option.some_injective _ h]
    · simp only [idxFind, if_neg hq] at h
      exact List.mem_cons_of_mem _ (ih h)

theorem idxErase_length (l : List (String × Nat)) (k : String) (e : Nat)
    (hnd : (l.map Prod.fst).Nodup) (h : idxFind l k = some e) :
    (idxErase l k).length + 1 = l.length := by
  induction l with
  | nil => simp [idxFind] at h
  | cons q rest ih =>
    simp only [List.map_cons, List.nodup_cons] at hnd
    by_cases hq : q.1 = k
    · have : idxFind rest k = none := by
        by_contra hc
        rcases Option.ne_none_iff_exists'.mp hc with ⟨e', he'⟩
        exact hnd.1 (by simpa [hq] using List.mem_map_of_mem Prod.fst (idxFind_mem rest k e' he'))
      simp [idxErase, hq, idxErase_of_find_none rest k this]
    · simp only [idxFind, if_neg hq] at h
      simp [idxErase, hq, ih hnd.2 h]

/-! ## Lemmas about headOr, lastOr and seg -/

theorem headOr_append (L R : List Nat) (alt : Option Nat) :
    headOr (L ++ R) alt = headOr L (headOr R alt) := by
  cases L <;> rfl

theorem lastOr_append (L R : List Nat) (alt : Option Nat) :
    lastOr (L ++ R) alt = lastOr R (lastOr L alt) := by
  induction L generalizing alt with
  | nil => rfl
  | cons x rest ih => simp [lastOr, ih]

theorem lastOr_mem (l : List Nat) (alt : Option Nat) (hne : l ≠ []) :
    ∃ x ∈ l, lastOr l alt = some x := by
  induction l generalizing alt with
  | nil => exact absurd rfl hne
  | cons a rest ih =>
    cases rest with
    | nil => exact ⟨a, by simp, rfl⟩
    | cons b rest' =>
      rcases ih (some a) (by simp) with ⟨x, hx, hl⟩
      exact ⟨x, by simp [hx], hl⟩

theorem lastOr_eq_some_mem (l : List Nat) (alt : Option Nat) (x : Nat) (hne : l ≠ [])
    (h : lastOr l alt = some x) : x ∈ l := by
  induction l generalizing alt with
  | nil => exact absurd rfl hne
  | cons a rest ih =>
    cases rest with
    | nil =>
      have : (some a : Option Nat) = some x := h
      simp [Option.some_injective _ this]
    | cons b rest' =>
      exact List.mem_cons_of_mem _ (ih (some a) (by simp) h)

theorem headOr_eq_self_iff (L : List Nat) (e : Nat) (he : e ∉ L) :
    headOr L (some e) = some e ↔ L = [] := by
  cases L with
  | nil => simp [headOr]
  | cons a rest =>
    simp only [headOr, List.mem_cons, not_or] at he ⊢
    constructor
    · intro h
      exact absurd (Option.some_injective _ h) (Ne.symm he.1)
    · intro h; cases h

theorem lastOr_eq_self_iff (R : List Nat) (e : Nat) (he : e ∉ R) :
    lastOr R (some e) = some e ↔ R = [] := by
  cases hR : R with
  | nil => simp [lastOr]
  | cons a rest =>
    subst hR
    constructor
    · intro h
      rcases lastOr_mem (a :: rest) (some e) (by simp) with ⟨x, hx, hl⟩
      rw [hl] at h
      exact absurd (Option.some_injective _ h ▸ hx) he
    · intro h; cases h

theorem seg_cons_iff (c : Cache) (prev : Option Nat) (e : Nat) (rest : List Nat)
    (nxt : Option Nat) :
    seg c prev (e :: rest) nxt = true ↔
      ∃ d, c.heapGet e = some d ∧ d.previous = prev ∧ d.next = headOr rest nxt ∧
        seg c (some e) rest nxt = true := by
  cases hg : c.heapGet e <;> simp [seg, hg, and_assoc]

theorem seg_append (c : Cache) (L R : List Nat) (prev nxt : Option Nat) :
    seg c prev (L ++ R) nxt = (seg c prev L (headOr R nxt) && seg c (lastOr L prev) R nxt) := by
  induction L generalizing prev with
  | nil => simp [seg, lastOr]
  | cons a rest ih =>
    cases hg : c.heapGet a with
    | none => simp [seg, hg]
    | some d =>
      have h1 : ∀ (l : List Nat) (pv nx : Option Nat),
          seg c pv (a :: l) nx
            = (decide (d.previous = pv) && decide (d.next = headOr l nx) && seg c (some a) l nx) := by
        intro l pv nx
        simp only [seg, hg]
      rw [List.cons_append, h1, h1, ih, headOr_append,
        show lastOr (a :: rest) prev = lastOr rest (some a) from rfl]
      simp [Bool.and_assoc]

theorem seg_frame (c c' : Cache) (prev nxt : Option Nat) (l : List Nat)
    (h : ∀ x ∈ l, c'.heapGet x = c.heapGet x) :
    seg c' prev l nxt = seg c prev l nxt := by
  induction l generalizing prev with
  | nil => rfl
  | cons a rest ih =>
    have ha : c'.heapGet a = c.heapGet a := h a (by simp)
    cases hg : c.heapGet a with
    | none => simp [seg, ha, hg]
    | some d =>
      simp [seg, ha, hg, ih (some a) (fun x hx => h x (by simp [hx]))]

theorem seg_isSome (c : Cache) (prev nxt : Option Nat) (l : List Nat)
    (h : seg c prev l nxt = true) : ∀ x ∈ l, (c.heapGet x).isSome := by
  induction l generalizing prev with
  | nil => simp
  | cons a rest ih =>
    rcases (seg_cons_iff c prev a rest nxt).mp h with ⟨d, hg, _, _, hrest⟩
    intro x hx
    rcases List.mem_cons.mp hx with hx | hx
    · simp [hx, hg]
    · exact ih (some a) hrest x hx

theorem seg_update_last (c : Cache) (prev v w : Option Nat) (l : List Nat) (x : Nat)
    (hnd : l.Nodup) (hl : seg c prev l v = true) (hx : lastOr l none = some x) :
    seg (c.heapModify x (fun d => { d with next := w })) prev l w = true := by
  induction l generalizing prev with
  | nil => simp [lastOr] at hx
  | cons a rest ih =>
    rcases (seg_cons_iff c prev a rest v).mp hl with ⟨d, hg, hp, hn, hrest⟩
    cases rest with
    | nil =>
      simp only [lastOr] at hx
      have hax : x = a := by simpa using hx.symm
      subst hax
      rw [seg_cons_iff]
      refine ⟨{ d with next := w }, ?_, by simp [hp], by simp [headOr], by simp [seg]⟩
      rw [heapGet_modify_self, hg]
      rfl
    | cons b rest' =>
      have hxmem : x ∈ b :: rest' := lastOr_eq_some_mem (b :: rest') (some a) x (by simp) hx
      have hxa : x ≠ a := fun h => (List.nodup_cons.mp hnd).1 (h ▸ hxmem)
      rw [seg_cons_iff]
      refine ⟨d, ?_, hp, by simpa [headOr] using hn, ?_⟩
      · rw [heapGet_modify_ne _ _ _ _ (Ne.symm hxa), hg]
      · exact ih (some a) (List.nodup_cons.mp hnd).2 hrest hx

theorem seg_update_first (c : Cache) (v w nxt : Option Nat) (a : Nat) (rest : List Nat)
    (hnd : (a :: rest).Nodup) (hl : seg c v (a :: rest) nxt = true) :
    seg (c.heapModify a (fun d => { d with previous := w })) w (a :: rest) nxt = true := by
  rcases (seg_cons_iff c v a rest nxt).mp hl with ⟨d, hg, _, hn, hrest⟩
  rw [seg_cons_iff]
  have hfr : ∀ x ∈ rest,
      (c.heapModify a fun d => { d with previous := w }).heapGet x = c.heapGet x := by
    intro x hx
    exact heapGet_modify_ne _ _ _ _ (fun h => (List.nodup_cons.mp hnd).1 (h ▸ hx))
  refine ⟨{ d with previous := w }, ?_, rfl, by simpa using hn, ?_⟩
  · rw [heapGet_modify_self, hg]; rfl
  · rw [seg_frame c _ (some a) nxt rest hfr]
    exact hrest

theorem lastOr_alt_irrel (l : List Nat) (alt alt' : Option Nat) (hne : l ≠ []) :
    lastOr l alt = lastOr l alt' := by
  cases l with
  | nil => exact absurd rfl hne
  | cons a rest => rfl

theorem sameData_refl (c : Cache) : sameData c c := fun _ => rfl

theorem sameData_trans {a b c : Cache} (h1 : sameData a b) (h2 : sameData b c) :
    sameData a c := fun i => (h2 i).trans (h1 i)

theorem sameData_modify_link (c : Cache) (i : Nat) (f : EntryData → EntryData)
    (hf : ∀ d, stripLinks (f d) = stripLinks d) : sameData c (c.heapModify i f) := by
  intro j
  by_cases hj : j = i
  · subst hj
    rw [heapGet_modify_self]
    cases c.heapGet j <;> simp [hf]
  · rw [heapGet_modify_ne _ _ _ _ hj]

/-! ## Specification of removeExistingEntryReferences

On a well-formed chain L ++ e :: R, removing the references of e repairs
the chain to L ++ R, leaves e's own record (and its stale links) in the
heap, and touches neither the index nor any non-link field. -/

theorem remove_spec (c : Cache) (L R : List Nat) (e : Nat)
    (hnd : (L ++ e :: R).Nodup)
    (hseg : seg c none (L ++ e :: R) none = true)
    (htail : c.tail = headOr (L ++ e :: R) none)
    (hhead : c.head = lastOr (L ++ e :: R) none) :
    ∃ c', removeExistingEntryReferences c e = some c' ∧
      c'.tail = headOr (L ++ R) none ∧
      c'.head = lastOr (L ++ R) none ∧
      seg c' none (L ++ R) none = true ∧
      c'.entries = c.entries ∧
      c'.maxSize = c.maxSize ∧
      c'.evictionPolicy = c.evictionPolicy ∧
      c'.freshId = c.freshId ∧
      c'.heap.map Prod.fst = c.heap.map Prod.fst ∧
      sameData c c' ∧
      c'.heapGet e = c.heapGet e := by
  have hmid : (e :: (L ++ R)).Nodup := List.nodup_middle.mp hnd
  have heLR : e ∉ L ++ R := (List.nodup_cons.mp hmid).1
  have heL : e ∉ L := fun h => heLR (List.mem_append_left R h)
  have heR : e ∉ R := fun h => heLR (List.mem_append_right L h)
  have hndLR : (L ++ R).Nodup := (List.nodup_cons.mp hmid).2
  have hndL : L.Nodup := hndLR.of_append_left
  have hndR : R.Nodup := hndLR.of_append_right
  have hdisj : L.Disjoint R := List.disjoint_of_nodup_append hndLR
  rw [seg_append] at hseg
  simp only [Bool.and_eq_true] at hseg
  obtain ⟨hsegL, hsegR⟩ := hseg
  rcases (seg_cons_iff c (lastOr L none) e R none).mp hsegR with ⟨d, hgd, hdp, hdn, hsegR'⟩
  have htail' : c.tail = headOr L (some e) := by
    rw [htail, headOr_append]; rfl
  have hhead' : c.head = lastOr R (some e) := by
    rw [hhead, lastOr_append]; rfl
  cases L with
  | nil =>
    have htailE : c.tail = some e := htail'
    have hdp' : d.previous = none := hdp
    cases R with
    | nil =>
      have hheadE : c.head = some e := hhead'
      have hdn' : d.next = none := hdn
      refine ⟨{ c with tail := none, head := none }, ?_, rfl, rfl, rfl, rfl, rfl, rfl, rfl, rfl,
        sameData_refl c, rfl⟩
      have hgd' : heapFind c.heap e = some d := hgd
      simp [removeExistingEntryReferences, htailE, hheadE, hgd', hdp', hdn', Cache.heapGet]
    | cons b R' =>
      have hbe : b ≠ e := fun h => heR (by simp [h])
      have hdn' : d.next = some b := hdn
      have hheadNe : ¬ c.head = some e := by
        rw [hhead', lastOr_eq_self_iff _ _ heR]; simp
      refine ⟨({ c with tail := some b } : Cache).heapModify b
          (fun nd => { nd with previous := none }), ?_, rfl, ?_, ?_, rfl, rfl, rfl, rfl, ?_, ?_, ?_⟩
      · have hgd' : heapFind c.heap e = some d := hgd
        have heb : e ≠ b := Ne.symm hbe
        simp [removeExistingEntryReferences, htailE, hheadNe, hgd', hdp', hdn', Cache.heapGet,
          Cache.heapModify, heapFind_heapSet_ne, heb]
      · show c.head = lastOr ([] ++ b :: R') none
        rw [hhead', List.nil_append, lastOr_alt_irrel (b :: R') (some e) none (by simp)]
      · show seg _ none ([] ++ b :: R') none = true
        rw [List.nil_append]
        have hfr : ∀ x ∈ b :: R',
            (({ c with tail := some b } : Cache).heapModify b
              (fun nd => { nd with previous := none })).heapGet x
            = (c.heapModify b (fun nd => { nd with previous := none })).heapGet x :=
          fun x _ => rfl
        rw [seg_frame (c.heapModify b (fun nd => { nd with previous := none }))
          (({ c with tail := some b } : Cache).heapModify b
            (fun nd => { nd with previous := none }))
          none none (b :: R') hfr]
        exact seg_update_first c (some e) none none b R' hndR hsegR'
      · exact heapSet_map_fst c.heap b _
      · exact sameData_trans (fun i => rfl)
          (sameData_modify_link ({ c with tail := some b } : Cache) b
            (fun nd => { nd with previous := none }) (fun _ => rfl))
      · rw [show (({ c with tail := some b } : Cache).heapModify b
            (fun nd => { nd with previous := none })).heapGet e
            = ({ c with tail := some b } : Cache).heapGet e from
          heapGet_modify_ne _ _ _ _ (Ne.symm hbe)]
        rfl
  | cons a L' =>
    rcases lastOr_mem (a :: L') none (by simp) with ⟨p, hpL, hp⟩
    have hpe : p ≠ e := fun h => heL (h ▸ hpL)
    have hae : a ≠ e := fun h => heL (by simp [h])
    have htailNe : ¬ c.tail = some e := by
      rw [htail']
      intro h
      exact hae (Option.some_injective _ h)
    have hdp' : d.previous = some p := by rw [hdp]; exact hp
    cases R with
    | nil =>
      have hheadE : c.head = some e := hhead'
      have hdn' : d.next = none := hdn
      refine ⟨({ c with head := some p } : Cache).heapModify p
          (fun pd => { pd with next := none }), ?_, htail'.trans rfl, ?_, ?_, rfl, rfl, rfl, rfl,
          ?_, ?_, ?_⟩
      · have hgd' : heapFind c.heap e = some d := hgd
        have hep : e ≠ p := Ne.symm hpe
        simp [removeExistingEntryReferences, htailNe, hheadE, hgd', hdp', hdn', Cache.heapGet,
          Cache.heapModify, heapFind_heapSet_ne, hep]
      · show some p = lastOr ((a :: L') ++ []) none
        rw [List.append_nil, hp]
      · show seg _ none ((a :: L') ++ []) none = true
        rw [List.append_nil]
        have hfr : ∀ x ∈ a :: L',
            (({ c with head := some p } : Cache).heapModify p
              (fun pd => { pd with next := none })).heapGet x
            = (c.heapModify p (fun pd => { pd with next := none })).heapGet x :=
          fun x _ => rfl
        rw [seg_frame (c.heapModify p (fun pd => { pd with next := none }))
          (({ c with head := some p } : Cache).heapModify p
            (fun pd => { pd with next := none }))
          none none (a :: L') hfr]
        exact seg_update_last c none (some e) none (a :: L') p hndL hsegL hp
      · exact heapSet_map_fst c.heap p _
      · exact sameData_trans (fun i => rfl)
          (sameData_modify_link ({ c with head := some p } : Cache) p
            (fun pd => { pd with next := none }) (fun _ => rfl))
      · rw [show (({ c with head := some p } : Cache).heapModify p
            (fun pd => { pd with next := none })).heapGet e
            = ({ c with head := some p } : Cache).heapGet e from
          heapGet_modify_ne _ _ _ _ (Ne.symm hpe)]
        rfl
    | cons b R' =>
      have hbe : b ≠ e := fun h => heR (by simp [h])
      have hbL : b ∉ a :: L' := fun h => hdisj h (by simp)
      have hpb : p ≠ b := fun h => hbL (h ▸ hpL)
      have hdn' : d.next = some b := hdn
      have hheadNe : ¬ c.head = some e := by
        rw [hhead', lastOr_eq_self_iff _ _ heR]; simp
      refine ⟨((c.heapModify p (fun pd => { pd with next := some b })).heapModify b
          (fun nd => { nd with previous := some p })), ?_, htail'.trans rfl, ?_, ?_, rfl, rfl,
          rfl, rfl, ?_, ?_, ?_⟩
      · have hgd' : heapFind c.heap e = some d := hgd
        have hep : e ≠ p := Ne.symm hpe
        have heb : e ≠ b := Ne.symm hbe
        simp [removeExistingEntryReferences, htailNe, hheadNe, hgd', hdp', hdn',
          Cache.heapGet, Cache.heapModify, heapFind_heapSet_ne, hep, heb]
      · show c.head = lastOr ((a :: L') ++ b :: R') none
        rw [hhead', lastOr_append,
          lastOr_alt_irrel (b :: R') (some e) (lastOr (a :: L') none) (by simp)]
      · rw [seg_append]
        have hL2 : seg ((c.heapModify p (fun pd => { pd with next := some b })).heapModify b
            (fun nd => { nd with previous := some p })) none (a :: L')
            (headOr (b :: R') none) = true := by
          have hfr : ∀ x ∈ a :: L',
              ((c.heapModify p (fun pd => { pd with next := some b })).heapModify b
                (fun nd => { nd with previous := some p })).heapGet x
              = (c.heapModify p (fun pd => { pd with next := some b })).heapGet x :=
            fun x hx => heapGet_modify_ne _ _ _ _ (fun hxb => hbL (hxb ▸ hx))
          rw [seg_frame (c.heapModify p (fun pd => { pd with next := some b }))
            ((c.heapModify p (fun pd => { pd with next := some b })).heapModify b
              (fun nd => { nd with previous := some p }))
            none (headOr (b :: R') none) (a :: L') hfr]
          exact seg_update_last c none (some e) (some b) (a :: L') p hndL hsegL hp
        have hR2 : seg ((c.heapModify p (fun pd => { pd with next := some b })).heapModify b
            (fun nd => { nd with previous := some p })) (lastOr (a :: L') none) (b :: R')
            none = true := by
          rw [hp]
          have hfr : seg (c.heapModify p (fun pd => { pd with next := some b }))
              (some e) (b :: R') none = true := by
            have hfr0 : ∀ x ∈ b :: R',
                (c.heapModify p (fun pd => { pd with next := some b })).heapGet x
                = c.heapGet x :=
              fun x hx => heapGet_modify_ne _ _ _ _
                (fun hxp => hdisj (hxp ▸ hpL) hx)
            rw [seg_frame c (c.heapModify p (fun pd => { pd with next := some b }))
              (some e) none (b :: R') hfr0]
            exact hsegR'
          exact seg_update_first _ (some e) (some p) none b R' hndR hfr
        rw [hL2, hR2]
        rfl
      · rw [show ((c.heapModify p (fun pd => { pd with next := some b })).heapModify b
            (fun nd => { nd with previous := some p })).heap
            = heapSet (heapSet c.heap p _) b _ from rfl, heapSet_map_fst, heapSet_map_fst]
      · exact sameData_trans
          (sameData_modify_link c p (fun pd => { pd with next := some b }) (fun _ => rfl))
          (sameData_modify_link (c.heapModify p (fun pd => { pd with next := some b })) b
            (fun nd => { nd with previous := some p }) (fun _ => rfl))
      · rw [heapGet_modify_ne _ _ _ _ (Ne.symm hbe), heapGet_modify_ne _ _ _ _ (Ne.symm hpe)]

theorem headOr_alt_irrel (l : List Nat) (alt alt' : Option Nat) (hne : l ≠ []) :
    headOr l alt = headOr l alt' := by
  cases l with
  | nil => exact absurd rfl hne
  | cons a rest => rfl

/-! ## Specification of moveExistingEntryToHead

On a well-formed chain L ++ e :: R, moving e to the head produces the
chain (L ++ R) ++ [e]; the sole-entry and already-at-head shapes are
handled, the index is untouched, and only link fields change. -/

theorem move_spec (c : Cache) (L R : List Nat) (e : Nat)
    (hnd : (L ++ e :: R).Nodup)
    (hseg : seg c none (L ++ e :: R) none = true)
    (htail : c.tail = headOr (L ++ e :: R) none)
    (hhead : c.head = lastOr (L ++ e :: R) none) :
    ∃ c', moveExistingEntryToHead c e = some c' ∧
      c'.tail = headOr ((L ++ R) ++ [e]) none ∧
      c'.head = some e ∧
      seg c' none ((L ++ R) ++ [e]) none = true ∧
      c'.entries = c.entries ∧
      c'.maxSize = c.maxSize ∧
      c'.evictionPolicy = c.evictionPolicy ∧
      c'.freshId = c.freshId ∧
      c'.heap.map Prod.fst = c.heap.map Prod.fst ∧
      sameData c c' := by
  have hmid : (e :: (L ++ R)).Nodup := List.nodup_middle.mp hnd
  have heLR : e ∉ L ++ R := (List.nodup_cons.mp hmid).1
  have heL : e ∉ L := fun h => heLR (List.mem_append_left R h)
  have heR : e ∉ R := fun h => heLR (List.mem_append_right L h)
  have hndLR : (L ++ R).Nodup := (List.nodup_cons.mp hmid).2
  by_cases hsole : L = [] ∧ R = []
  · obtain ⟨hL, hR⟩ := hsole
    subst hL; subst hR
    have hheadE : c.head = some e := hhead
    have htailE : c.tail = some e := htail
    refine ⟨c, ?_, htailE, hheadE, hseg, rfl, rfl, rfl, rfl, rfl, sameData_refl c⟩
    simp [moveExistingEntryToHead, hheadE, htailE]
  · have hcond : ¬(c.head = some e ∧ c.tail = some e) := by
      rintro ⟨hh, ht⟩
      rw [htail, headOr_append] at ht
      rw [hhead, lastOr_append] at hh
      exact hsole ⟨(headOr_eq_self_iff L e heL).mp ht, (lastOr_eq_self_iff R e heR).mp hh⟩
    obtain ⟨c1, hrun1, htail1, hhead1, hseg1, hent1, hmax1, hpol1, hfresh1, hmap1, hsd1, hget1⟩ :=
      remove_spec c L R e hnd hseg htail hhead
    have hLR : L ++ R ≠ [] := by
      intro hnil
      rcases List.append_eq_nil.mp hnil with ⟨h1, h2⟩
      exact hsole ⟨h1, h2⟩
    rcases lastOr_mem (L ++ R) none hLR with ⟨h, hhmem, hlast⟩
    have hhe : h ≠ e := fun heq => heLR (heq ▸ hhmem)
    have hhead1' : c1.head = some h := hhead1.trans hlast
    have hget1e : ∃ d, c1.heapGet e = some d := by
      rw [hget1]
      rw [seg_append] at hseg
      simp only [Bool.and_eq_true] at hseg
      rcases (seg_cons_iff c (lastOr L none) e R none).mp hseg.2 with ⟨d, hgd, _, _, _⟩
      exact ⟨d, hgd⟩
    rcases hget1e with ⟨d, hgd1⟩
    have hgd1' : heapFind c1.heap e = some d := hgd1
    refine ⟨{ (c1.heapModify e fun x => { x with previous := some h, next := none }).heapModify h
        (fun hd => { hd with next := some e }) with head := some e }, ?_, ?_, rfl, ?_, ?_, ?_,
        ?_, ?_, ?_, ?_⟩
    · have hne1 : ¬ c1.head = some e := by
        rw [hhead1']
        intro hx
        exact hhe (Option.some_injective _ hx)
      simp [moveExistingEntryToHead, hcond, hrun1, hne1, hhead1', hhe, Cache.heapGet,
        Cache.heapModify]
    · show c1.tail = headOr ((L ++ R) ++ [e]) none
      rw [htail1, headOr_append (L ++ R) [e] none]
      exact headOr_alt_irrel (L ++ R) none (headOr [e] none) hLR
    · rw [seg_append]
      have hfirst : seg ({ (c1.heapModify e fun x =>
          { x with previous := some h, next := none }).heapModify h
          (fun hd => { hd with next := some e }) with head := some e } : Cache) none (L ++ R)
          (headOr [e] none) = true := by
        have hstep1 : seg (c1.heapModify e fun x => { x with previous := some h, next := none })
            none (L ++ R) none = true := by
          have hfr : ∀ x ∈ L ++ R,
              (c1.heapModify e fun x => { x with previous := some h, next := none }).heapGet x
              = c1.heapGet x :=
            fun x hx => heapGet_modify_ne _ _ _ _ (fun hxe => heLR (hxe ▸ hx))
          rw [seg_frame c1 (c1.heapModify e fun x => { x with previous := some h, next := none })
            none none (L ++ R) hfr]
          exact hseg1
        have hstep2 := seg_update_last
          (c1.heapModify e fun x => { x with previous := some h, next := none })
          none none (some e) (L ++ R) h hndLR hstep1 hlast
        have hfr2 : ∀ x ∈ L ++ R,
            (({ (c1.heapModify e fun x => { x with previous := some h, next := none }).heapModify h
              (fun hd => { hd with next := some e }) with head := some e } : Cache)).heapGet x
            = (((c1.heapModify e fun x => { x with previous := some h, next := none }).heapModify h
              (fun hd => { hd with next := some e }))).heapGet x :=
          fun x _ => rfl
        rw [seg_frame ((c1.heapModify e fun x => { x with previous := some h, next := none }).heapModify h
            (fun hd => { hd with next := some e }))
          ({ (c1.heapModify e fun x => { x with previous := some h, next := none }).heapModify h
            (fun hd => { hd with next := some e }) with head := some e } : Cache)
          none (headOr [e] none) (L ++ R) hfr2]
        exact hstep2
      have hsecond : seg ({ (c1.heapModify e fun x =>
          { x with previous := some h, next := none }).heapModify h
          (fun hd => { hd with next := some e }) with head := some e } : Cache)
          (lastOr (L ++ R) none) [e] none = true := by
        rw [hlast]
        have hge : (({ (c1.heapModify e fun x =>
            { x with previous := some h, next := none }).heapModify h
            (fun hd => { hd with next := some e }) with head := some e } : Cache)).heapGet e
            = some { d with previous := some h, next := none } := by
          show ((c1.heapModify e fun x => { x with previous := some h, next := none }).heapModify h
            (fun hd => { hd with next := some e })).heapGet e
            = some { d with previous := some h, next := none }
          rw [heapGet_modify_ne _ _ _ _ hhe.symm, heapGet_modify_self, hgd1]
          rfl
        rw [seg_cons_iff]
        exact ⟨{ d with previous := some h, next := none }, hge, rfl, rfl, rfl⟩
      rw [hfirst, hsecond]
      rfl
    · exact hent1
    · exact hmax1
    · exact hpol1
    · exact hfresh1
    · show (heapSet (heapSet c1.heap e _) h _).map Prod.fst = c.heap.map Prod.fst
      rw [heapSet_map_fst, heapSet_map_fst, hmap1]
    · have s1 : sameData c1 (c1.heapModify e fun x =>
          { x with previous := some h, next := none }) :=
        sameData_modify_link c1 e _ (fun _ => rfl)
      have s2 : sameData (c1.heapModify e fun x => { x with previous := some h, next := none })
          ((c1.heapModify e fun x => { x with previous := some h, next := none }).heapModify h
            (fun hd => { hd with next := some e })) :=
        sameData_modify_link _ h _ (fun _ => rfl)
      have s3 : sameData ((c1.heapModify e fun x =>
            { x with previous := some h, next := none }).heapModify h
            (fun hd => { hd with next := some e }))
          ({ (c1.heapModify e fun x => { x with previous := some h, next := none }).heapModify h
            (fun hd => { hd with next := some e }) with head := some e } : Cache) :=
        fun i => rfl
      exact sameData_trans hsd1 (sameData_trans s1 (sameData_trans s2 s3))

theorem sameData_key (c c' : Cache) (h : sameData c c') (i : Nat) :
    (c'.heapGet i).map EntryData.key = (c.heapGet i).map EntryData.key := by
  have hi := h i
  cases hg : c.heapGet i <;> cases hg' : c'.heapGet i <;>
    simp [hg, hg', stripLinks] at hi ⊢
  exact hi.1

theorem fresh_of_map_fst (h h' : List (Nat × EntryData)) (n : Nat)
    (hmap : h'.map Prod.fst = h.map Prod.fst) (hf : ∀ p ∈ h, p.1 < n) :
    ∀ p ∈ h', p.1 < n := by
  intro p hp
  have hmem : p.1 ∈ h.map Prod.fst := hmap ▸ List.mem_map_of_mem Prod.fst hp
  rcases List.mem_map.mp hmem with ⟨q, hq, hq1⟩
  exact hq1 ▸ hf q hq

theorem wf_heapGet (c : Cache) (ids : List Nat) (e : Nat) (hwf : Wf c ids) (he : e ∈ ids) :
    ∃ d, c.heapGet e = some d ∧ idxFind c.entries d.key = some e := by
  obtain ⟨-, -, -, -, -, -, -, hids, -⟩ := hwf
  have h := hids e he
  cases hg : c.heapGet e with
  | none => rw [hg] at h; simp at h
  | some d =>
    rw [hg] at h
    exact ⟨d, rfl, by simpa using h⟩

theorem wf_key_inj (c : Cache) (ids : List Nat) (e1 e2 : Nat) (d1 d2 : EntryData)
    (hwf : Wf c ids) (h1 : e1 ∈ ids) (h2 : e2 ∈ ids)
    (hg1 : c.heapGet e1 = some d1) (hg2 : c.heapGet e2 = some d2)
    (hk : d1.key = d2.key) : e1 = e2 := by
  rcases wf_heapGet c ids e1 hwf h1 with ⟨d1', hg1', hf1⟩
  rcases wf_heapGet c ids e2 hwf h2 with ⟨d2', hg2', hf2⟩
  rw [hg1] at hg1'; rw [hg2] at hg2'
  cases Option.some_injective _ hg1'
  cases Option.some_injective _ hg2'
  rw [hk] at hf1
  exact Option.some_injective _ (hf1.symm.trans hf2)

/-! ## Specification of evict -/

/-- evict on an empty chain (nil tail) is a no-op. -/
theorem evict_nil (c : Cache) (h : c.tail = none) : evict c = some c := by
  simp [evict, h]

/-- evict on a chain holding exactly one entry dereferences the nil new
tail: the source runs cache.tail = cache.tail.next (nil) and then writes
cache.tail.previous, a nil-pointer panic. -/
theorem evict_single (c : Cache) (a : Nat) (hwf : Wf c [a]) : evict c = none := by
  obtain ⟨-, htail, -, hseg, hlen, -⟩ := hwf
  rcases (seg_cons_iff c none a [] none).mp hseg with ⟨d, hgd, -, hdn, -⟩
  have hgd' : heapFind c.heap a = some d := hgd
  have htail' : c.tail = some a := htail
  have hdn' : d.next = none := hdn
  have hlen' : ¬ c.entries.length = 0 := by
    rw [hlen]; simp
  simp [evict, htail', hgd', hdn', hlen', Cache.heapGet]

/-- evict on a well-formed chain of at least two entries removes exactly the
tail entry from the index, advances the tail, and preserves well-formedness
with the remaining chain. -/
theorem evict_spec (c : Cache) (a b : Nat) (rest : List Nat)
    (hwf : Wf c (a :: b :: rest)) :
    ∃ c' da, c.heapGet a = some da ∧ evict c = some c' ∧ Wf c' (b :: rest) ∧
      c'.entries = idxErase c.entries da.key ∧
      c'.entries.length + 1 = c.entries.length ∧
      idxFind c'.entries da.key = none ∧
      (∀ k, k ≠ da.key → idxFind c'.entries k = idxFind c.entries k) ∧
      c'.maxSize = c.maxSize ∧ c'.evictionPolicy = c.evictionPolicy ∧
      c'.freshId = c.freshId ∧ c'.heap.map Prod.fst = c.heap.map Prod.fst ∧
      sameData c c' := by
  obtain ⟨hnd, htail, hhead, hseg, hlen, hknd, hent, hids, hfresh, hhnd, hmax⟩ := hwf
  have hwf' : Wf c (a :: b :: rest) :=
    ⟨hnd, htail, hhead, hseg, hlen, hknd, hent, hids, hfresh, hhnd, hmax⟩
  rcases (seg_cons_iff c none a (b :: rest) none).mp hseg with ⟨da, hgda, hdap, hdan, hsegBR⟩
  have hgda' : heapFind c.heap a = some da := hgda
  have htail' : c.tail = some a := htail
  have hdan' : da.next = some b := hdan
  have hlen' : ¬ c.entries.length = 0 := by rw [hlen]; simp
  have hab : a ≠ b := by
    intro h
    exact (List.nodup_cons.mp hnd).1 (h ▸ List.mem_cons_self b rest)
  have hba : b ≠ a := Ne.symm hab
  have hfa : idxFind c.entries da.key = some a := by
    rcases wf_heapGet c (a :: b :: rest) a hwf' (by simp) with ⟨d', hg', hf'⟩
    rw [hgda] at hg'
    cases Option.some_injective _ hg'
    exact hf'
  set cFin := (({ { c with entries := idxErase c.entries da.key } with tail := some b } :
      Cache).heapModify b (fun td => { td with previous := none })) with hcFin
  have hrun : evict c = some cFin := by
    simp [evict, htail', hgda', hdan', hlen', Cache.heapGet, Cache.heapModify, hcFin]
  have hsd : sameData c cFin := by
    refine sameData_trans (fun i => rfl)
      (sameData_modify_link ({ { c with entries := idxErase c.entries da.key } with
        tail := some b } : Cache) b (fun td => { td with previous := none }) (fun _ => rfl))
  have hndBR : (b :: rest).Nodup := (List.nodup_cons.mp hnd).2
  have hmapFin : cFin.heap.map Prod.fst = c.heap.map Prod.fst := heapSet_map_fst c.heap b _
  have hkeyFin : ∀ i, (cFin.heapGet i).map EntryData.key = (c.heapGet i).map EntryData.key :=
    sameData_key c cFin hsd
  refine ⟨cFin, da, hgda, hrun, ?_, rfl, ?_, idxFind_erase_self _ _,
    fun k hk => idxFind_erase_ne _ _ _ hk, rfl, rfl, rfl, hmapFin, hsd⟩
  · refine ⟨hndBR, rfl, ?_, ?_, ?_, ?_, ?_, ?_, ?_, ?_, hmax⟩
    · show c.head = lastOr (b :: rest) none
      rw [hhead, show lastOr (a :: b :: rest) none = lastOr (b :: rest) (some a) from rfl,
        lastOr_alt_irrel (b :: rest) (some a) none (by simp)]
    · have hupd := seg_update_first c (some a) none none b rest hndBR hsegBR
      have hfr : ∀ x ∈ b :: rest,
          (cFin : Cache).heapGet x
          = (c.heapModify b (fun td => { td with previous := none })).heapGet x :=
        fun x _ => rfl
      rw [seg_frame (c.heapModify b (fun td => { td with previous := none })) cFin
        none none (b :: rest) hfr]
      exact hupd
    · show (idxErase c.entries da.key).length = (b :: rest).length
      have h1 := idxErase_length c.entries da.key a hknd hfa
      simp only [List.length_cons] at hlen ⊢
      omega
    · exact List.Nodup.sublist ((idxErase_sublist c.entries da.key).map Prod.fst) hknd
    · intro p hp
      rcases (mem_idxErase c.entries da.key p).mp hp with ⟨hpm, hpk⟩
      rcases hent p hpm with ⟨hpid, hpkey⟩
      have hpid' : p.2 ∈ b :: rest := by
        rcases List.mem_cons.mp hpid with h | h
        · exfalso
          rw [h, hgda] at hpkey
          exact hpk (Option.some_injective _ hpkey).symm
        · exact h
      exact ⟨hpid', (hkeyFin p.2).trans hpkey⟩
    · intro e he
      rcases wf_heapGet c (a :: b :: rest) e hwf' (List.mem_cons_of_mem a he) with ⟨d, hgd, hfd⟩
      have hkne : d.key ≠ da.key := by
        intro hk
        have := wf_key_inj c (a :: b :: rest) e a d da hwf'
          (List.mem_cons_of_mem a he) (by simp) hgd hgda hk
        exact (List.nodup_cons.mp hnd).1 (this ▸ he)
      have hkey' : (cFin.heapGet e).map EntryData.key = some d.key := by
        rw [hkeyFin e, hgd]
        rfl
      cases hg' : cFin.heapGet e with
      | none => rw [hg'] at hkey'; simp at hkey'
      | some d' =>
        rw [hg'] at hkey'
        simp only [Option.map_some'] at hkey'
        have hdk : d'.key = d.key := Option.some_injective _ hkey'
        show ((some d').map EntryData.key).bind (idxFind cFin.entries) = some e
        simp only [Option.map_some', Option.some_bind, hdk]
        show idxFind (idxErase c.entries da.key) d.key = some e
        rw [idxFind_erase_ne _ _ _ hkne]
        exact hfd
    · exact fresh_of_map_fst c.heap cFin.heap c.freshId hmapFin hfresh
    · rw [hmapFin]; exact hhnd
  · show (idxErase c.entries da.key).length + 1 = c.entries.length
    exact idxErase_length c.entries da.key a hknd hfa

/-! ## Preservation of the invariant under data-only modifications -/

theorem seg_links_frame (c c' : Cache) (prev nxt : Option Nat) (l : List Nat)
    (h : ∀ x ∈ l, (c'.heapGet x).map (fun d => (d.previous, d.next))
      = (c.heapGet x).map (fun d => (d.previous, d.next))) :
    seg c' prev l nxt = seg c prev l nxt := by
  induction l generalizing prev with
  | nil => rfl
  | cons a rest ih =>
    have ha := h a (by simp)
    cases hg : c.heapGet a with
    | none =>
      rw [hg] at ha
      cases hg' : c'.heapGet a with
      | none => simp [seg, hg, hg']
      | some d' => rw [hg'] at ha; simp at ha
    | some d =>
      rw [hg] at ha
      cases hg' : c'.heapGet a with
      | none => rw [hg'] at ha; simp at ha
      | some d' =>
        rw [hg'] at ha
        simp only [Option.map_some', Option.some_inj, Prod.mk.injEq] at ha
        have hprev : d'.previous = d.previous := ha.1
        have hnext : d'.next = d.next := ha.2
        simp [seg, hg, hg', hprev, hnext, ih (some a) (fun x hx => h x (by simp [hx]))]

theorem links_of_modify (c : Cache) (i : Nat) (f : EntryData → EntryData)
    (hprev : ∀ d, (f d).previous = d.previous) (hnext : ∀ d, (f d).next = d.next) :
    ∀ x, ((c.heapModify i f).heapGet x).map (fun d => (d.previous, d.next))
      = (c.heapGet x).map (fun d => (d.previous, d.next)) := by
  intro x
  by_cases hx : x = i
  · subst hx
    rw [heapGet_modify_self]
    cases c.heapGet x <;> simp [hprev, hnext]
  · rw [heapGet_modify_ne _ _ _ _ hx]

theorem keys_of_modify (c : Cache) (i : Nat) (f : EntryData → EntryData)
    (hkey : ∀ d, (f d).key = d.key) :
    ∀ x, ((c.heapModify i f).heapGet x).map EntryData.key
      = (c.heapGet x).map EntryData.key := by
  intro x
  by_cases hx : x = i
  · subst hx
    rw [heapGet_modify_self]
    cases c.heapGet x <;> simp [hkey]
  · rw [heapGet_modify_ne _ _ _ _ hx]

/-- A heap modification that preserves the key and both link fields
preserves the whole invariant with the same chain. -/
theorem wf_modify_preserve (c : Cache) (ids : List Nat) (i : Nat) (f : EntryData → EntryData)
    (hwf : Wf c ids) (hkey : ∀ d, (f d).key = d.key)
    (hprev : ∀ d, (f d).previous = d.previous) (hnext : ∀ d, (f d).next = d.next) :
    Wf (c.heapModify i f) ids := by
  obtain ⟨hnd, htail, hhead, hseg, hlen, hknd, hent, hids, hfresh, hhnd, hmax⟩ := hwf
  have hkeys := keys_of_modify c i f hkey
  refine ⟨hnd, htail, hhead, ?_, hlen, hknd, ?_, ?_, ?_, ?_, hmax⟩
  · rw [seg_links_frame c (c.heapModify i f) none none ids
      (fun x _ => links_of_modify c i f hprev hnext x)]
    exact hseg
  · intro p hp
    rcases hent p hp with ⟨h1, h2⟩
    exact ⟨h1, (hkeys p.2).trans h2⟩
  · intro e he
    rw [hkeys e]
    exact hids e he
  · exact fresh_of_map_fst c.heap _ c.freshId (heapSet_map_fst c.heap i f) hfresh
  · rw [show (c.heapModify i f).heap = heapSet c.heap i f from rfl, heapSet_map_fst]
    exact hhnd

/-- Reassemble the invariant for a state whose chain is a permutation of a
well-formed state's chain, given the chain-shape facts for the new state and
preservation of the index, configuration and entry data. -/
theorem wf_reassemble (c c' : Cache) (ids ids' : List Nat)
    (hwf : Wf c ids)
    (hperm : ids'.Perm ids)
    (htail : c'.tail = headOr ids' none)
    (hhead : c'.head = lastOr ids' none)
    (hseg : seg c' none ids' none = true)
    (hent : c'.entries = c.entries)
    (hmax : c'.maxSize = c.maxSize)
    (hfresh : c'.freshId = c.freshId)
    (hmap : c'.heap.map Prod.fst = c.heap.map Prod.fst)
    (hsd : sameData c c') :
    Wf c' ids' := by
  obtain ⟨hnd, -, -, -, hlen, hknd, hent0, hids0, hfresh0, hhnd0, hmax0⟩ := hwf
  have hkeys := sameData_key c c' hsd
  refine ⟨hperm.nodup_iff.mpr hnd, htail, hhead, hseg, ?_, ?_, ?_, ?_, ?_, ?_, ?_⟩
  · rw [hent, hlen, hperm.length_eq]
  · rw [hent]; exact hknd
  · intro p hp
    rw [hent] at hp
    rcases hent0 p hp with ⟨h1, h2⟩
    exact ⟨hperm.mem_iff.mpr h1, (hkeys p.2).trans h2⟩
  · intro e he
    rw [hkeys e, hent]
    exact hids0 e (hperm.mem_iff.mp he)
  · rw [hfresh]
    exact fresh_of_map_fst c.heap c'.heap c.freshId hmap hfresh0
  · rw [hmap]; exact hhnd0
  · rw [hmax]; exact hmax0

theorem lastOr_snoc (l : List Nat) (e : Nat) (alt : Option Nat) :
    lastOr (l ++ [e]) alt = some e := by
  rw [lastOr_append]; rfl

theorem idxFind_none_not_mem (l : List (String × Nat)) (k : String)
    (h : idxFind l k = none) : k ∉ l.map Prod.fst := by
  induction l with
  | nil => simp
  | cons q rest ih =>
    by_cases hq : q.1 = k
    · simp [idxFind, hq] at h
    · simp only [idxFind, if_neg hq] at h
      simp only [List.map_cons, List.mem_cons]
      rintro (h1 | h1)
      · exact hq h1.symm
      · exact ih h h1

/-! ## Specification of SetWithTTL on an existing key (update path) -/

theorem setUpdate_spec (c : Cache) (ids : List Nat) (key : String) (v : Val) (ttl now : Int)
    (e : Nat) (hwf : Wf c ids) (hfind : idxFind c.entries key = some e) :
    ∃ c' d ids', setWithTTL c key v ttl now = some c' ∧
      c.heapGet e = some d ∧ d.key = key ∧
      Wf c' ids' ∧
      c'.head = some e ∧
      (c'.heapGet e).map stripLinks
        = some (key, v, if ttl ≠ NoExpiration then now + ttl else NoExpiration,
            d.relevantTimestamp) ∧
      c'.maxSize = c.maxSize ∧
      c'.entries.length ≤ c.entries.length ∧
      ((c.entries.length : Int) ≤ c.maxSize → c'.entries = c.entries) := by
  obtain ⟨hnd, htail, hhead, hseg, hlen, hknd, hent, hids, hfresh, hhnd, hmax⟩ := hwf
  have hwf' : Wf c ids :=
    ⟨hnd, htail, hhead, hseg, hlen, hknd, hent, hids, hfresh, hhnd, hmax⟩
  have hmem : (key, e) ∈ c.entries := idxFind_mem c.entries key e hfind
  rcases hent (key, e) hmem with ⟨heids, hekey⟩
  cases hgd : c.heapGet e with
  | none => rw [hgd] at hekey; simp at hekey
  | some d =>
  rw [hgd] at hekey
  simp only [Option.map_some'] at hekey
  have hdkey : d.key = key := Option.some_injective _ hekey
  have he2 : e ∈ ids := heids
  rcases List.append_of_mem he2 with ⟨L, R, rfl⟩
  have hwf1 : Wf (c.heapModify e fun x => { x with value := v }) (L ++ e :: R) :=
    wf_modify_preserve c (L ++ e :: R) e _ hwf' (fun _ => rfl) (fun _ => rfl) (fun _ => rfl)
  have hwf1b := hwf1
  obtain ⟨hnd1, htail1, hhead1, hseg1, -⟩ := hwf1b
  obtain ⟨c2, hrun2, htail2, hhead2, hseg2, hent2, hmax2, hpol2, hfresh2, hmap2, hsd2⟩ :=
    move_spec (c.heapModify e fun x => { x with value := v }) L R e hnd1 hseg1 htail1 hhead1
  have hperm : ((L ++ R) ++ [e]).Perm (L ++ e :: R) :=
    (List.perm_append_singleton e (L ++ R)).trans List.perm_middle.symm
  have hwf2 : Wf c2 ((L ++ R) ++ [e]) := by
    refine wf_reassemble (c.heapModify e fun x => { x with value := v }) c2
      (L ++ e :: R) ((L ++ R) ++ [e]) hwf1 hperm htail2 ?_ hseg2 hent2 hmax2 hfresh2 hmap2 hsd2
    rw [hhead2, lastOr_snoc]
  have hg1 : (c.heapModify e fun x => { x with value := v }).heapGet e
      = some { d with value := v } := by
    rw [heapGet_modify_self, hgd]
    rfl
  have hstrip2 : (c2.heapGet e).map stripLinks = some (d.key, v, d.expiration,
      d.relevantTimestamp) := by
    rw [hsd2 e, hg1]
    rfl
  cases hg2 : c2.heapGet e with
  | none => rw [hg2] at hstrip2; simp at hstrip2
  | some d2 =>
  rw [hg2] at hstrip2
  simp only [Option.map_some', Option.some_inj, stripLinks, Prod.mk.injEq] at hstrip2
  obtain ⟨hd2k, hd2v, hd2e, hd2t⟩ := hstrip2
  have hrunS : setWithTTL c key v ttl now = finishSet c2 e ttl now := by
    simp [setWithTTL, hfind, hrun2]
  have hfin : finishSet c2 e ttl now
      = (if c.maxSize = NoMaxSize then
          some (c2.heapModify e fun x =>
            { x with expiration := if ttl ≠ NoExpiration then now + ttl else NoExpiration })
        else if c.maxSize < (c.entries.length : Int) then
          evict (c2.heapModify e fun x =>
            { x with expiration := if ttl ≠ NoExpiration then now + ttl else NoExpiration })
        else some (c2.heapModify e fun x =>
            { x with expiration := if ttl ≠ NoExpiration then now + ttl else NoExpiration })) := by
    have hment2 : c2.entries.length = c.entries.length := by rw [hent2]; rfl
    unfold finishSet
    by_cases h : ttl ≠ NoExpiration <;>
      simp [h, Cache.heapModify, hmax2, hment2]
  set EXP := if ttl ≠ NoExpiration then now + ttl else NoExpiration with hEXP
  set c3 := c2.heapModify e fun x => { x with expiration := EXP } with hc3
  have hwf3 : Wf c3 ((L ++ R) ++ [e]) :=
    wf_modify_preserve c2 ((L ++ R) ++ [e]) e _ hwf2 (fun _ => rfl) (fun _ => rfl) (fun _ => rfl)
  have hg3 : c3.heapGet e = some { d2 with expiration := EXP } := by
    rw [hc3, heapGet_modify_self, hg2]
    rfl
  have hstrip3 : (c3.heapGet e).map stripLinks = some (key, v, EXP, d.relevantTimestamp) := by
    rw [hg3]
    simp [stripLinks, hd2k, hd2v, hd2t, hdkey]
  have hhead3 : c3.head = some e := hhead2
  have hent3 : c3.entries = c.entries := hent2
  have hmax3 : c3.maxSize = c.maxSize := hmax2
  by_cases hms : c.maxSize = NoMaxSize
  · refine ⟨c3, d, (L ++ R) ++ [e], ?_, rfl, hdkey, hwf3, hhead3, hstrip3, hmax3, ?_, ?_⟩
    · rw [hrunS, hfin, if_pos hms]
    · rw [hent3]
    · intro _; exact hent3
  · by_cases hover : c.maxSize < (c.entries.length : Int)
    · have hlen3 : c3.entries.length = ((L ++ R) ++ [e]).length := by
        rw [hent3, hlen, hperm.length_eq]
      have hge1 : 1 ≤ c.maxSize := by
        rcases lt_or_eq_of_le hmax with h | h
        · exact h
        · exact absurd h.symm hms
      have hlenge2 : 2 ≤ ((L ++ R) ++ [e]).length := by
        have : (1 : Int) < (c.entries.length : Int) := lt_of_le_of_lt hge1 hover
        have h2 : 1 < c.entries.length := by exact_mod_cast this
        rw [hlen, ← hperm.length_eq] at h2
        omega
      cases hLR : L ++ R with
      | nil => rw [hLR] at hlenge2; simp at hlenge2
      | cons x xs =>
      cases hxe : xs ++ [e] with
      | nil => exact absurd hxe (by simp)
      | cons y ys =>
      have hids3 : (L ++ R) ++ [e] = x :: y :: ys := by
        rw [hLR, List.cons_append, hxe]
      obtain ⟨c4, da, hgda, hrun4, hwf4, hent4, hlen4, hkerased, hkother, hmax4, hpol4,
        hfresh4, hmap4, hsd4⟩ := evict_spec c3 x y ys (hids3 ▸ hwf3)
      refine ⟨c4, d, y :: ys, ?_, rfl, hdkey, hwf4, ?_, ?_, ?_, ?_, ?_⟩
      · rw [hrunS, hfin, if_neg hms, if_pos hover, hrun4]
      · obtain ⟨-, -, hhead4, -⟩ := hwf4
        rw [hhead4, show (y : Nat) :: ys = xs ++ [e] from hxe.symm, lastOr_snoc]
      · rw [hsd4 e]
        exact hstrip3
      · rw [hmax4, hmax3]
      · have := hlen4
        rw [hent3] at this
        omega
      · intro hle
        exact absurd (lt_of_le_of_lt hle hover) (lt_irrefl _)
    · refine ⟨c3, d, (L ++ R) ++ [e], ?_, rfl, hdkey, hwf3, hhead3, hstrip3, hmax3, ?_, ?_⟩
      · rw [hrunS, hfin, if_neg hms, if_neg hover]
      · rw [hent3]
      · intro _; exact hent3

/-! ## Specification of SetWithTTL on an absent key -/

/-- The insert-avoidance safeguard: a negative ttl that is not the
NoExpiration sentinel makes SetWithTTL on an absent key a no-op. -/
theorem setSkip_spec (c : Cache) (key : String) (v : Val) (ttl now : Int)
    (hfind : idxFind c.entries key = none) (hneg : ttl < 0) (hne : ttl ≠ NoExpiration) :
    setWithTTL c key v ttl now = some c := by
  simp [setWithTTL, hfind, hne, hneg]

theorem setInsert_spec (c : Cache) (ids : List Nat) (key : String) (v : Val) (ttl now : Int)
    (hwf : Wf c ids) (hfind : idxFind c.entries key = none)
    (hok : ¬(ttl ≠ NoExpiration ∧ ttl < 0)) :
    ∃ c' ids', setWithTTL c key v ttl now = some c' ∧ Wf c' ids' ∧
      c'.head = some c.freshId ∧
      (c'.heapGet c.freshId).map stripLinks
        = some (key, v, if ttl ≠ NoExpiration then now + ttl else NoExpiration, now) ∧
      idxFind c'.entries key = some c.freshId ∧
      c'.maxSize = c.maxSize ∧
      ((c.maxSize = NoMaxSize ∨ (c.entries.length : Int) + 1 ≤ c.maxSize) →
        c'.entries = (key, c.freshId) :: c.entries) ∧
      ((c.maxSize ≠ NoMaxSize ∧ c.maxSize < (c.entries.length : Int) + 1) →
        ∃ ka ea, idxFind c.entries ka = some ea ∧ ka ≠ key ∧
          c'.entries = idxErase ((key, c.freshId) :: c.entries) ka ∧
          c'.entries.length = c.entries.length) := by
  obtain ⟨hnd, htail, hhead, hseg, hlen, hknd, hent, hids, hfresh, hhnd, hmax⟩ := hwf
  have hwf' : Wf c ids :=
    ⟨hnd, htail, hhead, hseg, hlen, hknd, hent, hids, hfresh, hhnd, hmax⟩
  have hxlt : ∀ x ∈ ids, x < c.freshId := by
    intro x hx
    have hs := seg_isSome c none none ids hseg x hx
    cases hg : c.heapGet x with
    | none => rw [hg] at hs; simp at hs
    | some dd =>
      rcases List.mem_map.mp (heapFind_mem_fst c.heap x dd hg) with ⟨q, hq, hq1⟩
      exact hq1 ▸ hfresh q hq
  have heNot : c.freshId ∉ ids := fun h => lt_irrefl _ (hxlt _ h)
  have hkeyOld : key ∉ c.entries.map Prod.fst := idxFind_none_not_mem _ _ hfind
  cases hids0 : ids with
  | nil =>
    have hent0 : c.entries = [] := by
      rw [hids0] at hlen
      exact List.length_eq_zero.mp hlen
    have hhead0 : c.head = none := by rw [hhead, hids0]; rfl
    set newd : EntryData :=
      { key := key, value := v, expiration := 0, relevantTimestamp := now,
        previous := none, next := none } with hnewd
    set c3 : Cache :=
      { c with
        heap := (c.freshId, newd) :: c.heap
        entries := (key, c.freshId) :: c.entries
        head := some c.freshId
        tail := some c.freshId
        freshId := c.freshId + 1 } with hc3
    have hrunS : setWithTTL c key v ttl now = finishSet c3 c.freshId ttl now := by
      simp [setWithTTL, hfind, hok, hhead0, hc3, hnewd]
    have hg3 : c3.heapGet c.freshId = some newd := by
      show heapFind ((c.freshId, newd) :: c.heap) c.freshId = some newd
      simp [heapFind]
    have hwf3 : Wf c3 [c.freshId] := by
      refine ⟨by simp, rfl, rfl, ?_, by simp [hc3, hent0], ?_, ?_, ?_, ?_, ?_, hmax⟩
      · rw [seg_cons_iff]
        exact ⟨newd, hg3, rfl, rfl, rfl⟩
      · show ((key, c.freshId) :: c.entries).map Prod.fst |>.Nodup
        rw [hent0]; simp
      · intro p hp
        rw [show c3.entries = (key, c.freshId) :: c.entries from rfl, hent0] at hp
        simp only [List.mem_singleton] at hp
        subst hp
        refine ⟨by simp, ?_⟩
        rw [hg3]
        rfl
      · intro x hx
        simp only [List.mem_singleton] at hx
        subst hx
        rw [hg3]
        show idxFind ((key, c.freshId) :: c.entries) newd.key = some c.freshId
        simp [idxFind, hnewd]
      · intro p hp
        show p.1 < c.freshId + 1
        rcases List.mem_cons.mp hp with h | h
        · rw [h]
          exact Nat.lt_succ_self _
        · exact lt_trans (hfresh p h) (Nat.lt_succ_self _)
      · show (((c.freshId, newd) :: c.heap).map Prod.fst).Nodup
        simp only [List.map_cons, List.nodup_cons]
        constructor
        · intro hmem
          rcases List.mem_map.mp hmem with ⟨q, hq, hq1⟩
          exact lt_irrefl _ (hq1 ▸ hfresh q hq)
        · exact hhnd
    have hmax3 : c3.maxSize = c.maxSize := rfl
    have hent3 : c3.entries = (key, c.freshId) :: c.entries := rfl
    have hhead3 : c3.head = some c.freshId := rfl
    have hlen3 : c3.entries.length = 1 := by
      rw [hent3, hent0]
      rfl
    clear_value c3
    set EXP := if ttl ≠ NoExpiration then now + ttl else NoExpiration with hEXP
    have hfin : finishSet c3 c.freshId ttl now
        = some (c3.heapModify c.freshId fun x => { x with expiration := EXP }) := by
      unfold finishSet
      by_cases h0 : c3.maxSize = NoMaxSize
      · by_cases h : ttl ≠ NoExpiration <;> simp [h, h0, Cache.heapModify, hEXP]
      · have hlt : ¬ c3.maxSize < (c3.entries.length : Int) := by
          rw [hlen3, hmax3]
          intro hlt
          have h1 : c.maxSize < 1 := by exact_mod_cast hlt
          have h2 : c.maxSize = 0 := by omega
          exact h0 (hmax3.trans h2)
        by_cases h : ttl ≠ NoExpiration <;> simp [h, h0, hlt, Cache.heapModify, hEXP]
    set c4 := c3.heapModify c.freshId fun x => { x with expiration := EXP } with hc4
    have hwf4 : Wf c4 [c.freshId] :=
      wf_modify_preserve c3 [c.freshId] c.freshId _ hwf3 (fun _ => rfl) (fun _ => rfl)
        (fun _ => rfl)
    have hent4 : c4.entries = (key, c.freshId) :: c.entries := hent3
    refine ⟨c4, [c.freshId], hrunS.trans hfin, hwf4, hhead3, ?_, ?_, hmax3, ?_, ?_⟩
    · rw [hc4, heapGet_modify_self, hg3]
      rfl
    · rw [show c4.entries = c3.entries from rfl, hent3]
      simp [idxFind]
    · intro _
      exact hent4
    · rintro ⟨h0, hlt⟩
      rw [hent0] at hlt
      have h1 : c.maxSize < 1 := by exact_mod_cast hlt
      have h2 : c.maxSize = 0 := by omega
      exact absurd h2 h0
  | cons x xs =>
    subst hids0
    rcases lastOr_mem (x :: xs) none (by simp) with ⟨hl, hlmem, hllast⟩
    have hhead' : c.head = some hl := by rw [hhead]; exact hllast
    have hle : hl ≠ c.freshId := fun h => heNot (h ▸ hlmem)
    set newd : EntryData :=
      { key := key, value := v, expiration := 0, relevantTimestamp := now,
        previous := some hl, next := none } with hnewd
    set c3 : Cache :=
      { c with
        heap := heapSet ((c.freshId, newd) :: c.heap) hl
          (fun hd => { hd with next := some c.freshId })
        entries := (key, c.freshId) :: c.entries
        head := some c.freshId
        freshId := c.freshId + 1 } with hc3
    have hrunS : setWithTTL c key v ttl now = finishSet c3 c.freshId ttl now := by
      simp [setWithTTL, hfind, hok, hhead', hc3, hnewd, Cache.heapModify]
    have hg3e : c3.heapGet c.freshId = some newd := by
      show heapFind (heapSet ((c.freshId, newd) :: c.heap) hl
        (fun hd => { hd with next := some c.freshId })) c.freshId = some newd
      rw [heapFind_heapSet_ne _ _ _ _ (Ne.symm hle), heapFind_cons, if_pos rfl]
    have hkeys3 : ∀ i, i ≠ c.freshId →
        (c3.heapGet i).map EntryData.key = (c.heapGet i).map EntryData.key := by
      intro i hi
      have h1 : c3.heapGet i = heapFind (heapSet ((c.freshId, newd) :: c.heap) hl
          (fun hd => { hd with next := some c.freshId })) i := rfl
      by_cases hihl : i = hl
      · subst hihl
        rw [h1, heapFind_heapSet_self, heapFind_cons, if_neg (Ne.symm hi)]
        show ((heapFind c.heap i).map _).map EntryData.key
          = (heapFind c.heap i).map EntryData.key
        cases heapFind c.heap i <;> simp
      · rw [h1, heapFind_heapSet_ne _ _ _ _ hihl, heapFind_cons, if_neg (Ne.symm hi)]
        rfl
    have hfr1 : ∀ z ∈ x :: xs,
        heapFind ((c.freshId, newd) :: c.heap) z = heapFind c.heap z := by
      intro z hz
      rw [heapFind_cons, if_neg]
      intro h
      exact heNot (by rw [show c.freshId = z from h]; exact hz)
    have hsegC3 : seg c3 none ((x :: xs) ++ [c.freshId]) none = true := by
      rw [seg_append]
      have hA : seg c3 none (x :: xs) (headOr [c.freshId] none) = true := by
        have hs1 : seg ({ c with
            heap := (c.freshId, newd) :: c.heap
            freshId := c.freshId + 1 } : Cache) none (x :: xs) none = true := by
          rw [seg_frame c ({ c with
            heap := (c.freshId, newd) :: c.heap
            freshId := c.freshId + 1 } : Cache) none none (x :: xs)
            (fun z hz => hfr1 z hz)]
          exact hseg
        have hs2 := seg_update_last ({ c with
            heap := (c.freshId, newd) :: c.heap
            freshId := c.freshId + 1 } : Cache) none none (some c.freshId) (x :: xs) hl
          hnd hs1 hllast
        have hfr2 : ∀ z ∈ x :: xs, c3.heapGet z
            = (({ c with
                heap := (c.freshId, newd) :: c.heap
                freshId := c.freshId + 1 } : Cache).heapModify hl
              (fun hd => { hd with next := some c.freshId })).heapGet z :=
          fun z _ => rfl
        rw [seg_frame (({ c with
            heap := (c.freshId, newd) :: c.heap
            freshId := c.freshId + 1 } : Cache).heapModify hl
          (fun hd => { hd with next := some c.freshId })) c3
          none (headOr [c.freshId] none) (x :: xs) hfr2]
        exact hs2
      have hB : seg c3 (lastOr (x :: xs) none) [c.freshId] none = true := by
        rw [hllast, seg_cons_iff]
        exact ⟨newd, hg3e, rfl, rfl, rfl⟩
      rw [hA, hB]
      rfl
    have hfreshCons : ∀ p ∈ (c.freshId, newd) :: c.heap, p.1 < c.freshId + 1 := by
      intro p hp
      rcases List.mem_cons.mp hp with h | h
      · rw [h]
        exact Nat.lt_succ_self _
      · exact lt_trans (hfresh p h) (Nat.lt_succ_self _)
    have hwf3 : Wf c3 ((x :: xs) ++ [c.freshId]) := by
      refine ⟨?_, ?_, ?_, hsegC3, ?_, ?_, ?_, ?_, ?_, ?_, hmax⟩
      · rw [List.nodup_append]
        refine ⟨hnd, List.nodup_singleton _, fun a ha hb => ?_⟩
        have hab : a = c.freshId := by simpa using hb
        exact heNot (hab ▸ ha)
      · show c.tail = headOr ((x :: xs) ++ [c.freshId]) none
        rw [htail]
        rfl
      · show some c.freshId = lastOr ((x :: xs) ++ [c.freshId]) none
        rw [lastOr_snoc]
      · show ((key, c.freshId) :: c.entries).length = ((x :: xs) ++ [c.freshId]).length
        rw [List.length_cons, hlen]
        simp
      · show (((key, c.freshId) :: c.entries).map Prod.fst).Nodup
        simp only [List.map_cons, List.nodup_cons]
        exact ⟨hkeyOld, hknd⟩
      · intro p hp
        rcases List.mem_cons.mp hp with h | h
        · rw [h]
          refine ⟨by simp, ?_⟩
          rw [hg3e]
          rfl
        · rcases hent p h with ⟨h1, h2⟩
          have hpne : p.2 ≠ c.freshId := fun hq => heNot (hq ▸ h1)
          exact ⟨List.mem_append_left _ h1, (hkeys3 p.2 hpne).trans h2⟩
      · intro z hz
        rcases List.mem_append.mp hz with h | h
        · have hzne : z ≠ c.freshId := fun hq => heNot (hq ▸ h)
          rw [hkeys3 z hzne]
          have hb := hids z h
          cases hgz : c.heapGet z with
          | none => rw [hgz] at hb; simp at hb
          | some dz =>
            rw [hgz] at hb
            simp only [Option.map_some', Option.some_bind] at hb ⊢
            have hdzk : dz.key ≠ key := by
              intro hk
              rw [hk, hfind] at hb
              cases hb
            show idxFind ((key, c.freshId) :: c.entries) dz.key = some z
            rw [show idxFind ((key, c.freshId) :: c.entries) dz.key
              = if key = dz.key then some c.freshId else idxFind c.entries dz.key from rfl,
              if_neg (Ne.symm hdzk)]
            exact hb
        · have hzf : z = c.freshId := by simpa using h
          subst hzf
          rw [hg3e]
          show idxFind ((key, c.freshId) :: c.entries) newd.key = some c.freshId
          rw [show newd.key = key from rfl]
          show (if key = key then some c.freshId else idxFind c.entries key) = some c.freshId
          rw [if_pos rfl]
      · show ∀ p ∈ heapSet ((c.freshId, newd) :: c.heap) hl
          (fun hd => { hd with next := some c.freshId }), p.1 < c.freshId + 1
        exact fresh_of_map_fst _ _ _ (heapSet_map_fst _ _ _) hfreshCons
      · show ((heapSet ((c.freshId, newd) :: c.heap) hl
          (fun hd => { hd with next := some c.freshId })).map Prod.fst).Nodup
        rw [heapSet_map_fst]
        simp only [List.map_cons, List.nodup_cons]
        refine ⟨?_, hhnd⟩
        intro hmem
        rcases List.mem_map.mp hmem with ⟨q, hq, hq1⟩
        exact lt_irrefl _ (hq1 ▸ hfresh q hq)
    have hmax3 : c3.maxSize = c.maxSize := rfl
    have hent3 : c3.entries = (key, c.freshId) :: c.entries := rfl
    have hhead3 : c3.head = some c.freshId := rfl
    have hlen3 : c3.entries.length = c.entries.length + 1 := by rw [hent3]; rfl
    clear_value c3
    set EXP := if ttl ≠ NoExpiration then now + ttl else NoExpiration with hEXP
    have hfin : finishSet c3 c.freshId ttl now
        = (if c.maxSize = NoMaxSize then
            some (c3.heapModify c.freshId fun z => { z with expiration := EXP })
          else if c.maxSize < (c.entries.length : Int) + 1 then
            evict (c3.heapModify c.freshId fun z => { z with expiration := EXP })
          else some (c3.heapModify c.freshId fun z => { z with expiration := EXP })) := by
      unfold finishSet
      have hcast : ((c3.entries.length : Int)) = (c.entries.length : Int) + 1 := by
        rw [hlen3]
        push_cast
        rfl
      by_cases h : ttl ≠ NoExpiration <;>
        simp [h, Cache.heapModify, hmax3, hcast, hEXP]
    set c4 := c3.heapModify c.freshId fun z => { z with expiration := EXP } with hc4
    have hwf4 : Wf c4 ((x :: xs) ++ [c.freshId]) :=
      wf_modify_preserve c3 ((x :: xs) ++ [c.freshId]) c.freshId _ hwf3 (fun _ => rfl)
        (fun _ => rfl) (fun _ => rfl)
    have hent4 : c4.entries = (key, c.freshId) :: c.entries := hent3
    have hhead4 : c4.head = some c.freshId := hhead3
    have hmax4 : c4.maxSize = c.maxSize := hmax3
    have hg4 : (c4.heapGet c.freshId).map stripLinks = some (key, v, EXP, now) := by
      rw [hc4, heapGet_modify_self, hg3e]
      rfl
    have hidx4 : idxFind c4.entries key = some c.freshId := by
      rw [hent4]
      show (if key = key then some c.freshId else idxFind c.entries key) = some c.freshId
      rw [if_pos rfl]
    by_cases hms : c.maxSize = NoMaxSize
    · refine ⟨c4, (x :: xs) ++ [c.freshId], ?_, hwf4, hhead4, hg4, hidx4, hmax4, ?_, ?_⟩
      · rw [hrunS, hfin, if_pos hms]
      · intro _; exact hent4
      · rintro ⟨h0, _⟩; exact absurd hms h0
    · by_cases hover : c.maxSize < (c.entries.length : Int) + 1
      · cases hxe : xs ++ [c.freshId] with
        | nil => exact absurd hxe (by simp)
        | cons y ys =>
        have hids4 : (x :: xs) ++ [c.freshId] = x :: y :: ys := by
          rw [List.cons_append, hxe]
        obtain ⟨c5, da, hgda, hrun5, hwf5, hent5, hlen5, hkerased, hkother, hmax5, hpol5,
          hfresh5, hmap5, hsd5⟩ := evict_spec c4 x y ys (hids4 ▸ hwf4)
        rcases wf_heapGet c (x :: xs) x hwf' (by simp) with ⟨dx, hgdx, hfdx⟩
        have hdax : da.key = dx.key := by
          have h1 : (c4.heapGet x).map EntryData.key = (c.heapGet x).map EntryData.key := by
            have hxne : x ≠ c.freshId := fun hq => heNot (hq ▸ (by simp : x ∈ x :: xs))
            have h2 : (c4.heapGet x).map EntryData.key
                = (c3.heapGet x).map EntryData.key := by
              rw [hc4]
              exact keys_of_modify c3 c.freshId
                (fun z => { z with expiration := EXP }) (fun _ => rfl) x
            rw [h2]
            exact hkeys3 x hxne
          rw [hgda, hgdx] at h1
          simpa using h1
        have hkane : da.key ≠ key := by
          rw [hdax]
          intro hk
          rw [hk, hfind] at hfdx
          cases hfdx
        refine ⟨c5, y :: ys, ?_, hwf5, ?_, ?_, ?_, ?_, ?_, ?_⟩
        · rw [hrunS, hfin, if_neg hms, if_pos hover, hrun5]
        · obtain ⟨-, -, hh5, -⟩ := hwf5
          rw [hh5, show (y : Nat) :: ys = xs ++ [c.freshId] from hxe.symm, lastOr_snoc]
        · rw [hsd5 c.freshId]
          exact hg4
        · have hfne : c.freshId ≠ x := fun hq => heNot (hq ▸ (by simp : x ∈ x :: xs))
          have h1 : idxFind c5.entries key = idxFind c4.entries key := by
            rw [hent5, hidx4]
            rw [idxFind_erase_ne c4.entries da.key key (Ne.symm hkane)]
            exact hidx4
          rw [h1]
          exact hidx4
        · rw [hmax5, hmax4]
        · intro hcond
          rcases hcond with h0 | hle
          · exact absurd h0 hms
          · exact absurd (lt_of_le_of_lt hle hover) (lt_irrefl _)
        · intro _
          refine ⟨da.key, x, ?_, hkane, ?_, ?_⟩
          · rw [← hdax] at hfdx
            exact hfdx
          · rw [hent5, hent4]
          · have := hlen5
            rw [hent4] at this
            simp only [List.length_cons] at this
            omega
      · refine ⟨c4, (x :: xs) ++ [c.freshId], ?_, hwf4, hhead4, hg4, hidx4, hmax4, ?_, ?_⟩
        · rw [hrunS, hfin, if_neg hms, if_neg hover]
        · intro _; exact hent4
        · rintro ⟨-, hlt⟩
          exact absurd hlt hover

/-! ## Lookup-path lemmas (Get, TTL) and small helpers -/

/-- Get on a key whose entry has expired: not-found, state untouched
(either policy, since the policy branch is only reached when not expired). -/
theorem get_expired_spec (c : Cache) (key : String) (now : Int) (e : Nat) (d : EntryData)
    (hfind : idxFind c.entries key = some e) (hg : c.heapGet e = some d)
    (hexp : d.expired now = true) :
    get c key now = some (none, c) := by
  simp [get, hfind, hg, hexp]

/-- Get on an absent key: not-found, state untouched. -/
theorem get_absent_spec (c : Cache) (key : String) (now : Int)
    (hfind : idxFind c.entries key = none) :
    get c key now = some (none, c) := by
  simp [get, hfind]

theorem idxFind_isSome_of_mem_fst (l : List (String × Nat)) (k : String)
    (h : k ∈ l.map Prod.fst) : (idxFind l k).isSome := by
  induction l with
  | nil => simp at h
  | cons q rest ih =>
    by_cases hq : q.1 = k
    · simp [idxFind, hq]
    · simp only [List.map_cons, List.mem_cons] at h
      rcases h with h | h
      · exact absurd h.symm hq
      · simp only [idxFind, if_neg hq]
        exact ih h

theorem filter_length_le_one (l : List String) (p : String → Bool) (ka : String)
    (hnd : l.Nodup) (h : ∀ a ∈ l, p a = true → a = ka) : (l.filter p).length ≤ 1 := by
  have hsub : ∀ a ∈ l.filter p, a = ka := fun a ha =>
    h a (List.mem_of_mem_filter ha) (List.of_mem_filter ha)
  have hndf : (l.filter p).Nodup := hnd.filter p
  cases hf : l.filter p with
  | nil => simp
  | cons a rest =>
    cases rest with
    | nil => simp
    | cons b rest' =>
      exfalso
      have ha : a = ka := hsub a (by rw [hf]; simp)
      have hb : b = ka := hsub b (by rw [hf]; simp)
      rw [hf] at hndf
      rcases List.nodup_cons.mp hndf with ⟨hna, -⟩
      exact hna (by rw [ha, hb]; simp)

/-! ## Concrete states used to instantiate the theorems -/

/-- A never-expiring entry with key "a", created at instant 10. -/
def entryA : EntryData :=
  { key := "a", value := 1, expiration := NoExpiration, relevantTimestamp := 10,
    previous := none, next := none }

/-- A cache holding exactly the entry entryA. -/
def cacheA : Cache :=
  { maxSize := 1000
    evictionPolicy := EvictionPolicy.FirstInFirstOut
    heap := [(0, entryA)]
    entries := [("a", 0)]
    head := some 0
    tail := some 0
    freshId := 1 }

/-- An entry with key "a" that expired at instant 50. -/
def entryExp : EntryData :=
  { key := "a", value := 1, expiration := 50, relevantTimestamp := 10,
    previous := none, next := none }

/-- A cache holding exactly the expired entry entryExp. -/
def cacheExp : Cache :=
  { maxSize := 1000
    evictionPolicy := EvictionPolicy.FirstInFirstOut
    heap := [(0, entryExp)]
    entries := [("a", 0)]
    head := some 0
    tail := some 0
    freshId := 1 }

/-! ## Claim theorems -/

/-- C1: evict is a no-op on an empty cache, and on a well-formed chain of
two or more entries it removes exactly the tail (evict_spec above); but on a
cache holding exactly one reachable entry - here built through the public
Set path - the source advances cache.tail to tail.next (nil) and then
writes cache.tail.previous through the nil pointer: modelled as evict
returning none (a runtime panic), not the claimed normal termination with
an empty cache. -/
theorem c1_evict_single_entry_panics :
    evict (Cache.new 1000 EvictionPolicy.FirstInFirstOut)
        = some (Cache.new 1000 EvictionPolicy.FirstInFirstOut) ∧
    (setWithTTL (Cache.new 1000 EvictionPolicy.FirstInFirstOut) "a" 1 NoExpiration 10).isSome
        = true ∧
    (setWithTTL (Cache.new 1000 EvictionPolicy.FirstInFirstOut) "a" 1 NoExpiration 10).bind
        evict = none := by
  decide

/-- C2 counterexample: ttl = -2 and now = 1 satisfy the claim's conditions
(negative TTL, not the NoExpiration sentinel) and the key "a" is present, so
per the claim the update should leave the entry immediately expired; but the
written expiration is now + ttl = -1, the reserved NoExpiration sentinel, so
the updated entry is never-expiring: expired is false (at the update instant
and every other), and TTL afterwards reports the no-expiration condition
rather than not-found. -/
theorem c2_counterexample :
    (-2 : Int) < 0 ∧ (-2 : Int) ≠ NoExpiration ∧
    (idxFind cacheA.entries "a").isSome = true ∧
    ((setWithTTL cacheA "a" 2 (-2) 1).bind
      (fun c' => (c'.heapGet 0).map (fun d => (d.value, d.expiration, d.expired 1))))
      = some (2, NoExpiration, false) ∧
    ((setWithTTL cacheA "a" 2 (-2) 1).bind (fun c' => ttl c' "a" 1))
      = some TTLResult.keyHasNoExpiration := by
  decide

/-- C2 (amended): with a TTL that is negative but not the NoExpiration
sentinel, SetWithTTL on an absent key is a no-op (the cache is returned
unchanged), while on a present key the update proceeds regardless of TTL
sign: the value is rewritten, the expiration becomes now + ttl, and the
entry is moved to the head.  The updated entry is immediately expired except
at the degenerate instant where now + ttl equals the NoExpiration sentinel
(-1): there the written expiration is the reserved sentinel and the entry
becomes never-expiring instead (c2_counterexample). -/
theorem c2_amended_negative_ttl_update (c : Cache) (ids : List Nat)
    (key : String) (v : Val) (ttl now : Int) (hwf : Wf c ids)
    (hneg : ttl < 0) (hsent : ttl ≠ NoExpiration) :
    (idxFind c.entries key = none → setWithTTL c key v ttl now = some c) ∧
    (∀ e, idxFind c.entries key = some e →
      ∃ c' d ids', setWithTTL c key v ttl now = some c' ∧ c.heapGet e = some d ∧
        Wf c' ids' ∧ c'.head = some e ∧
        (c'.heapGet e).map stripLinks = some (key, v, now + ttl, d.relevantTimestamp) ∧
        (now + ttl ≠ NoExpiration →
          ∀ d', c'.heapGet e = some d' → d'.expired now = true) ∧
        (now + ttl = NoExpiration →
          ∀ d', c'.heapGet e = some d' →
            d'.expiration = NoExpiration ∧ ∀ t, d'.expired t = false)) := by
  constructor
  · intro hfind
    exact setSkip_spec c key v ttl now hfind hneg hsent
  · intro e hfind
    obtain ⟨c', d, ids', hrun, hgd, hdk, hwf', hhead, hstrip, hmax, -⟩ :=
      setUpdate_spec c ids key v ttl now e hwf hfind
    rw [if_pos hsent] at hstrip
    refine ⟨c', d, ids', hrun, hgd, hwf', hhead, hstrip, ?_, ?_⟩
    · intro hcol d' hgd'
      rw [hgd'] at hstrip
      simp only [Option.map_some', Option.some_inj, stripLinks, Prod.mk.injEq] at hstrip
      obtain ⟨-, -, hexp, -⟩ := hstrip
      simp only [EntryData.expired, decide_eq_true_eq]
      rw [hexp]
      exact ⟨hcol, by omega⟩
    · intro hcol d' hgd'
      rw [hgd'] at hstrip
      simp only [Option.map_some', Option.some_inj, stripLinks, Prod.mk.injEq] at hstrip
      obtain ⟨-, -, hexp, -⟩ := hstrip
      have hexp' : d'.expiration = NoExpiration := hexp.trans hcol
      refine ⟨hexp', ?_⟩
      intro t
      simp [EntryData.expired, hexp']

/-- Witness for C2's amended theorem: updating the present key "a" with
ttl -2 at instant 100 (all hypotheses checked concretely; 100 + -2 = 98 is
not the sentinel, so the updated entry is immediately expired). -/
theorem c2_amended_witness :
    (Wf cacheA [0] ∧ (-2 : Int) < 0 ∧ (-2 : Int) ≠ NoExpiration) ∧
    ((idxFind cacheA.entries "a" = none → setWithTTL cacheA "a" 2 (-2) 100 = some cacheA) ∧
     (∀ e, idxFind cacheA.entries "a" = some e →
       ∃ c' d ids', setWithTTL cacheA "a" 2 (-2) 100 = some c' ∧
         cacheA.heapGet e = some d ∧
         Wf c' ids' ∧ c'.head = some e ∧
         (c'.heapGet e).map stripLinks = some ("a", 2, 100 + -2, d.relevantTimestamp) ∧
         ((100 : Int) + -2 ≠ NoExpiration →
           ∀ d', c'.heapGet e = some d' → d'.expired 100 = true) ∧
         ((100 : Int) + -2 = NoExpiration →
           ∀ d', c'.heapGet e = some d' →
             d'.expiration = NoExpiration ∧ ∀ t, d'.expired t = false))) :=
  ⟨⟨by decide, by decide, by decide⟩,
    c2_amended_negative_ttl_update cacheA [0] "a" 2 (-2) 100
      (by decide) (by decide) (by decide)⟩

/-- C3 counterexample: create "a" at instant 10 through Set, update it at
instant 20; the stored relevantTimestamp is still 10, not the update
instant 20 - so relevantTimestamp is not the time of the most recent
update. -/
theorem c3_counterexample :
    (((setWithTTL (Cache.new 1000 EvictionPolicy.FirstInFirstOut) "a" 1 NoExpiration 10).bind
        (fun c₁ => setWithTTL c₁ "a" 2 NoExpiration 20)).bind
        (fun c₂ => (idxFind c₂.entries "a").bind
          (fun e => (c₂.heapGet e).map EntryData.relevantTimestamp)))
      = some 10 ∧ ¬ ((10 : Int) = 20) := by
  decide

/-- C3 amended: an update through set/setWithTTL leaves the entry's
relevantTimestamp unchanged - it records the creation instant (and, under
LeastRecentlyUsed, the last successful read), never the update instant. -/
theorem c3_amended_update_keeps_timestamp (c : Cache) (ids : List Nat) (key : String)
    (v : Val) (ttl now : Int) (e : Nat) (d : EntryData) (hwf : Wf c ids)
    (hfind : idxFind c.entries key = some e) (hg : c.heapGet e = some d) :
    ∃ c' d', setWithTTL c key v ttl now = some c' ∧ c'.heapGet e = some d' ∧
      d'.relevantTimestamp = d.relevantTimestamp := by
  obtain ⟨c', d0, ids', hrun, hgd0, hd0k, hwf', hhead, hstrip, -⟩ :=
    setUpdate_spec c ids key v ttl now e hwf hfind
  have hd0 : d0 = d := by
    rw [hg] at hgd0
    exact (Option.some_injective _ hgd0).symm
  subst hd0
  cases hg' : c'.heapGet e with
  | none => rw [hg'] at hstrip; simp at hstrip
  | some d' =>
    rw [hg'] at hstrip
    simp only [Option.map_some', Option.some_inj, stripLinks, Prod.mk.injEq] at hstrip
    exact ⟨c', d', hrun, hg', hstrip.2.2.2⟩

/-- C3 amended witness at a concrete input. -/
theorem c3_amended_witness :
    ∃ c' d', setWithTTL cacheA "a" 2 NoExpiration 20 = some c' ∧ c'.heapGet 0 = some d' ∧
      d'.relevantTimestamp = entryA.relevantTimestamp :=
  c3_amended_update_keeps_timestamp cacheA [0] "a" 2 NoExpiration 20 0 entryA
    (by decide) (by decide) (by decide)

/-- C6: Get on a key whose stored entry has expired returns not-found with
the state completely unchanged (either eviction policy - the policy branch
is only reached for live entries), so the entry stays in the index and in
the count until some mutating operation removes it. -/
theorem c6_get_expired_not_found_unchanged (c : Cache) (key : String) (now : Int)
    (e : Nat) (d : EntryData)
    (hfind : idxFind c.entries key = some e) (hg : c.heapGet e = some d)
    (hexp : d.expired now = true) :
    get c key now = some (none, c) :=
  get_expired_spec c key now e d hfind hg hexp

/-- C6 witness: the expired concrete entry. -/
theorem c6_witness : get cacheExp "a" 100 = some (none, cacheExp) :=
  c6_get_expired_not_found_unchanged cacheExp "a" 100 0 entryExp
    (by decide) (by decide) (by decide)

/-- C7: TTL signals the not-found condition for an absent key and for an
entry whose remaining time is negative (already expired), signals the
distinct no-expiration condition for the NoExpiration sentinel, and
otherwise returns a non-negative remaining duration; the two error
conditions are distinct values and never conflated. -/
theorem c7_ttl_error_conditions (c : Cache) (key : String) (now : Int) :
    (idxFind c.entries key = none → ttl c key now = some TTLResult.keyDoesNotExist) ∧
    (∀ e d, idxFind c.entries key = some e → c.heapGet e = some d →
      (d.expiration = NoExpiration → ttl c key now = some TTLResult.keyHasNoExpiration) ∧
      (d.expiration ≠ NoExpiration → d.expiration < now →
        ttl c key now = some TTLResult.keyDoesNotExist) ∧
      (d.expiration ≠ NoExpiration → now ≤ d.expiration →
        ttl c key now = some (TTLResult.duration (d.expiration - now)) ∧
          0 ≤ d.expiration - now)) ∧
    TTLResult.keyDoesNotExist ≠ TTLResult.keyHasNoExpiration := by
  refine ⟨?_, ?_, by decide⟩
  · intro h
    simp [ttl, h]
  · intro e d hfind hg
    refine ⟨?_, ?_, ?_⟩
    · intro h
      simp [ttl, hfind, hg, h]
    · intro h1 h2
      have hlt : d.expiration - now < 0 := by omega
      simp [ttl, hfind, hg, h1, hlt, h2]
    · intro h1 h2
      have hge : ¬ d.expiration - now < 0 := by omega
      exact ⟨by simp [ttl, hfind, hg, h1, hge, h2], by omega⟩

/-- C7 witness: the lazily-expired concrete entry reports not-found. -/
theorem c7_witness : ttl cacheExp "a" 100 = some TTLResult.keyDoesNotExist := by
  have h := c7_ttl_error_conditions cacheExp "a" 100
  exact ((h.2.1 0 entryExp (by decide) (by decide)).2.1) (by decide) (by decide)

/-- C10: the spec requires the LRU read's exclusive relink section to
re-validate that the entry is still indexed and do nothing otherwise; the
source has no such check.  Interleaving Delete between the two phases of an
LRU Get (the lock is dropped between lookup and relink, modelled by
getLruPostLookup running against the post-delete state): with two entries,
the deleted entry (id 0) is relinked as the list head while absent from the
index; with one entry, the relink dereferences the nil head (none = panic). -/
theorem c10_lru_relink_resurrects_deleted_entry :
    ((((setWithTTL (Cache.new 1000 EvictionPolicy.LeastRecentlyUsed) "a" 1 NoExpiration 10).bind
        (fun c₁ => setWithTTL c₁ "b" 2 NoExpiration 20)).bind
        (fun c₂ => (delete c₂ "a").map Prod.snd)).bind
        (fun cD => getLruPostLookup cD 0 99)).map
        (fun cR => (cR.head, idxFind cR.entries "a"))
      = some (some 0, none) ∧
    (((setWithTTL (Cache.new 1000 EvictionPolicy.LeastRecentlyUsed) "a" 1 NoExpiration 10).bind
        (fun c₁ => (delete c₁ "a").map Prod.snd)).bind
        (fun cD => getLruPostLookup cD 0 99))
      = none := by
  decide

/-- C5: on a well-formed cache with a configured positive maximum size and
entry count within the bound, a single SetWithTTL call succeeds, preserves
well-formedness and the bound (count ≤ MaxSize), and removes at most one
pre-existing key from the index (at most one eviction per call). -/
theorem c5_set_preserves_max_size (c : Cache) (ids : List Nat) (key : String) (v : Val)
    (ttl now : Int) (hwf : Wf c ids) (hpos : 0 < c.maxSize)
    (hle : (Cache.count c : Int) ≤ c.maxSize) :
    ∃ c' ids', setWithTTL c key v ttl now = some c' ∧ Wf c' ids' ∧
      c'.maxSize = c.maxSize ∧ (Cache.count c' : Int) ≤ c.maxSize ∧
      ((c.entries.map Prod.fst).filter
        (fun k => (idxFind c'.entries k).isNone)).length ≤ 1 := by
  have hknd : (c.entries.map Prod.fst).Nodup := by
    obtain ⟨-, -, -, -, -, h, -⟩ := hwf
    exact h
  have hms : c.maxSize ≠ NoMaxSize := by
    intro h
    rw [h] at hpos
    exact lt_irrefl _ hpos
  cases hfind : idxFind c.entries key with
  | some e =>
    obtain ⟨c', d, ids', hrun, hgd, hdk, hwf', hhead, hstrip, hmax', hlen', hent'⟩ :=
      setUpdate_spec c ids key v ttl now e hwf hfind
    have hent'' : c'.entries = c.entries := hent' hle
    refine ⟨c', ids', hrun, hwf', hmax', ?_, ?_⟩
    · show ((c'.entries.length : Int)) ≤ c.maxSize
      rw [hent'']
      exact hle
    · have hnil : (c.entries.map Prod.fst).filter
          (fun k => (idxFind c'.entries k).isNone) = [] := by
        rw [List.filter_eq_nil_iff]
        intro k hk
        rw [hent'']
        have := idxFind_isSome_of_mem_fst c.entries k hk
        simp only [Option.isNone_iff_eq_none]
        intro hnone
        rw [hnone] at this
        cases this
      rw [hnil]
      simp
  | none =>
    by_cases hok : ttl ≠ NoExpiration ∧ ttl < 0
    · have hrun := setSkip_spec c key v ttl now hfind hok.2 hok.1
      refine ⟨c, ids, hrun, hwf, rfl, hle, ?_⟩
      have hnil : (c.entries.map Prod.fst).filter
          (fun k => (idxFind c.entries k).isNone) = [] := by
        rw [List.filter_eq_nil_iff]
        intro k hk
        have := idxFind_isSome_of_mem_fst c.entries k hk
        simp only [Option.isNone_iff_eq_none]
        intro hnone
        rw [hnone] at this
        cases this
      rw [hnil]
      simp
    · obtain ⟨c', ids', hrun, hwf', hhead, hstrip, hidx, hmax', hnoev, hev⟩ :=
        setInsert_spec c ids key v ttl now hwf hfind hok
      have hkeyOld : key ∉ c.entries.map Prod.fst := idxFind_none_not_mem _ _ hfind
      by_cases hcap : (c.entries.length : Int) + 1 ≤ c.maxSize
      · have hent' : c'.entries = (key, c.freshId) :: c.entries := hnoev (Or.inr hcap)
        refine ⟨c', ids', hrun, hwf', hmax', ?_, ?_⟩
        · show ((c'.entries.length : Int)) ≤ c.maxSize
          rw [hent']
          simpa using hcap
        · have hnil : (c.entries.map Prod.fst).filter
              (fun k => (idxFind c'.entries k).isNone) = [] := by
            rw [List.filter_eq_nil_iff]
            intro k hk
            rw [hent']
            have hks := idxFind_isSome_of_mem_fst c.entries k hk
            by_cases hkk : key = k
            · simp [idxFind, hkk]
            · show ¬ (if key = k then some c.freshId
                else idxFind c.entries k).isNone = true
              rw [if_neg hkk]
              simp only [Option.isNone_iff_eq_none]
              intro hnone
              rw [hnone] at hks
              cases hks
          rw [hnil]
          simp
      · obtain ⟨ka, ea, hka, hkane, hent', hlen'⟩ := hev ⟨hms, by omega⟩
        refine ⟨c', ids', hrun, hwf', hmax', ?_, ?_⟩
        · show ((c'.entries.length : Int)) ≤ c.maxSize
          rw [hlen']
          exact hle
        · refine filter_length_le_one _ _ ka hknd ?_
          intro k hk hnone
          by_contra hkka
          have hks := idxFind_isSome_of_mem_fst c.entries k hk
          have hkkey : k ≠ key := fun h => hkeyOld (h ▸ hk)
          rw [hent', idxFind_erase_ne _ _ _ hkka] at hnone
          have : idxFind ((key, c.freshId) :: c.entries) k = idxFind c.entries k := by
            show (if key = k then some c.freshId else idxFind c.entries k)
              = idxFind c.entries k
            rw [if_neg (Ne.symm hkkey)]
          rw [this] at hnone
          simp only [Option.isNone_iff_eq_none] at hnone
          rw [hnone] at hks
          cases hks

/-- C5 witness at a concrete input: inserting a second key into a
one-entry cache with MaxSize 1 evicts exactly one entry and keeps the
count at the bound. -/
theorem c5_witness :
    ∃ c' ids', setWithTTL { cacheA with maxSize := 1 } "b" 2 NoExpiration 20 = some c' ∧
      Wf c' ids' ∧ c'.maxSize = { cacheA with maxSize := 1 }.maxSize ∧
      (Cache.count c' : Int) ≤ { cacheA with maxSize := 1 }.maxSize ∧
      ((({ cacheA with maxSize := 1 } : Cache).entries.map Prod.fst).filter
        (fun k => (idxFind c'.entries k).isNone)).length ≤ 1 :=
  c5_set_preserves_max_size { cacheA with maxSize := 1 } [0] "b" 2 NoExpiration 20
    (by decide) (by decide) (by decide)

/-- C8: on a decode failure ReadFromFile surfaces the error and returns
with the in-memory state untouched - the source returns before building
any list state (the decoder itself is modelled as atomic). -/
theorem c8_decode_failure_state_unchanged (c : Cache) :
    readFromFile c none = some (Except.error (), c) := rfl

/-! ## The restore path: decode, sort, relink, evict loop -/

/-- The fresh Entry objects allocated while decoding a snapshot list,
tagged with consecutive allocation ids starting at n; the unexported link
fields are not in the snapshot and come out nil. -/
def tagItems (n : Nat) : List (String × EntryData) → List (Nat × EntryData)
  | [] => []
  | kv :: rest =>
    (n, { kv.2 with key := kv.1, previous := none, next := none }) :: tagItems (n + 1) rest

/-- The index bindings created by decoding (newest allocation first once
reversed). -/
def tagIds (n : Nat) (ds : List (String × EntryData)) : List (String × Nat) :=
  (tagItems n ds).map (fun p => (p.2.key, p.1))

/-- Erase a list of keys from the index in order. -/
def eraseAll (l : List (String × Nat)) : List String → List (String × Nat)
  | [] => l
  | k :: ks => eraseAll (idxErase l k) ks

theorem tagItems_map_fst (ds : List (String × EntryData)) :
    ∀ n, (tagItems n ds).map Prod.fst = List.range' n ds.length := by
  induction ds with
  | nil => intro n; rfl
  | cons kv rest ih =>
    intro n
    show n :: (tagItems (n + 1) rest).map Prod.fst = List.range' n (rest.length + 1)
    rw [ih (n + 1), List.range'_succ]

theorem eraseAll_nil_left (ks : List String) : eraseAll [] ks = [] := by
  induction ks with
  | nil => rfl
  | cons k ks ih => simpa [eraseAll, idxErase] using ih

theorem eraseAll_find (ks : List String) : ∀ (l : List (String × Nat)) (k : String),
    idxFind (eraseAll l ks) k = if k ∈ ks then none else idxFind l k := by
  induction ks with
  | nil => intro l k; simp [eraseAll]
  | cons k0 ks ih =>
    intro l k
    by_cases hk : k = k0
    · subst hk
      by_cases hmem : k ∈ ks
      · simp [eraseAll, ih, hmem]
      · simp [eraseAll, ih, hmem, idxFind_erase_self]
    · by_cases hmem : k ∈ ks
      · simp [eraseAll, ih, hmem, hk]
      · simp [eraseAll, ih, hmem, hk, idxFind_erase_ne l k0 k hk]

theorem eraseAll_cons_notmem (k : String) (e : Nat) (ks : List String) :
    ∀ l, k ∉ ks → eraseAll ((k, e) :: l) ks = (k, e) :: eraseAll l ks := by
  induction ks with
  | nil => intro l _; rfl
  | cons k0 ks ih =>
    intro l hk
    have hk0 : k ≠ k0 := fun h => hk (by simp [h])
    have hks : k ∉ ks := fun h => hk (by simp [h])
    show eraseAll (idxErase ((k, e) :: l) k0) ks = (k, e) :: eraseAll (idxErase l k0) ks
    rw [show idxErase ((k, e) :: l) k0 = (k, e) :: idxErase l k0 by
      simp [idxErase, hk0]]
    exact ih (idxErase l k0) hks

/-- The exact result of the decode-merge fold: freshly tagged objects are
prepended to the heap, the index gets the new bindings (newest first) in
front of the old index with all snapshot keys erased, and the freshId
advances by the snapshot size.  Head, tail and configuration are
untouched. -/
theorem decodeInto_spec (ds : List (String × EntryData)) : ∀ (c : Cache),
    (ds.map Prod.fst).Nodup →
    decodeInto c ds = { c with
      heap := (tagItems c.freshId ds).reverse ++ c.heap
      entries := (tagIds c.freshId ds).reverse ++ eraseAll c.entries (ds.map Prod.fst)
      freshId := c.freshId + ds.length } := by
  induction ds with
  | nil =>
    intro c _
    show c = { c with heap := c.heap, entries := c.entries, freshId := c.freshId + 0 }
    rfl
  | cons kv rest ih =>
    intro c hnd
    simp only [List.map_cons, List.nodup_cons] at hnd
    obtain ⟨hk, hnd'⟩ := hnd
    show decodeInto ({ c with
        heap := (c.freshId, { kv.2 with key := kv.1, previous := none, next := none }) :: c.heap
        entries := (kv.1, c.freshId) :: idxErase c.entries kv.1
        freshId := c.freshId + 1 } : Cache) rest = _
    rw [ih _ hnd']
    show ({ c with
        heap := (tagItems (c.freshId + 1) rest).reverse
          ++ (c.freshId, { kv.2 with key := kv.1, previous := none, next := none }) :: c.heap
        entries := (tagIds (c.freshId + 1) rest).reverse
          ++ eraseAll ((kv.1, c.freshId) :: idxErase c.entries kv.1) (rest.map Prod.fst)
        freshId := c.freshId + 1 + rest.length } : Cache) = _
    rw [eraseAll_cons_notmem kv.1 c.freshId (rest.map Prod.fst) (idxErase c.entries kv.1) hk]
    show _ = ({ c with
        heap := (tagItems c.freshId (kv :: rest)).reverse ++ c.heap
        entries := (tagIds c.freshId (kv :: rest)).reverse
          ++ eraseAll c.entries (kv.1 :: rest.map Prod.fst)
        freshId := c.freshId + (rest.length + 1) } : Cache)
    rw [show tagItems c.freshId (kv :: rest)
        = (c.freshId, { kv.2 with key := kv.1, previous := none, next := none })
          :: tagItems (c.freshId + 1) rest from rfl]
    rw [show eraseAll c.entries (kv.1 :: rest.map Prod.fst)
        = eraseAll (idxErase c.entries kv.1) (rest.map Prod.fst) from rfl]
    rw [show tagIds c.freshId (kv :: rest)
        = (kv.1, c.freshId) :: tagIds (c.freshId + 1) rest from rfl]
    simp [Nat.add_assoc, Nat.add_comm 1 rest.length]

theorem heapFind_eq_some_iff (h : List (Nat × EntryData)) (i : Nat) (d : EntryData)
    (hnd : (h.map Prod.fst).Nodup) : heapFind h i = some d ↔ (i, d) ∈ h := by
  induction h with
  | nil => simp [heapFind]
  | cons q rest ih =>
    obtain ⟨j, dq⟩ := q
    simp only [List.map_cons, List.nodup_cons] at hnd
    by_cases hq : j = i
    · subst hq
      rw [heapFind_cons, if_pos rfl, List.mem_cons]
      constructor
      · intro hd
        exact Or.inl (by rw [← Option.some_injective _ hd])
      · rintro (hd | hd)
        · simp only [Prod.mk.injEq] at hd
          rw [hd.2]
        · exact absurd (List.mem_map_of_mem Prod.fst hd) hnd.1
    · rw [heapFind_cons, if_neg hq, List.mem_cons, ih hnd.2]
      constructor
      · exact Or.inr
      · rintro (hd | hd)
        · exact absurd (congrArg Prod.fst hd).symm hq
        · exact hd

theorem idxFind_cons (q : String × Nat) (l : List (String × Nat)) (k : String) :
    idxFind (q :: l) k = if q.1 = k then some q.2 else idxFind l k := rfl

theorem idxFind_eq_some_iff (l : List (String × Nat)) (k : String) (e : Nat)
    (hnd : (l.map Prod.fst).Nodup) : idxFind l k = some e ↔ (k, e) ∈ l := by
  induction l with
  | nil => simp [idxFind]
  | cons q rest ih =>
    obtain ⟨k', e'⟩ := q
    simp only [List.map_cons, List.nodup_cons] at hnd
    by_cases hq : k' = k
    · subst hq
      rw [idxFind_cons, if_pos rfl, List.mem_cons]
      constructor
      · intro hd
        exact Or.inl (by rw [← Option.some_injective _ hd])
      · rintro (hd | hd)
        · simp only [Prod.mk.injEq] at hd
          rw [hd.2]
        · exact absurd (List.mem_map_of_mem Prod.fst hd) hnd.1
    · rw [idxFind_cons, if_neg hq, List.mem_cons, ih hnd.2]
      constructor
      · exact Or.inr
      · rintro (hd | hd)
        · exact absurd (congrArg Prod.fst hd).symm hq
        · exact hd

theorem tagItems_mem (ds : List (String × EntryData)) :
    ∀ n p, p ∈ tagItems n ds →
      n ≤ p.1 ∧ p.1 < n + ds.length ∧ p.2.previous = none ∧ p.2.next = none := by
  induction ds with
  | nil => intro n p hp; simp [tagItems] at hp
  | cons kv rest ih =>
    intro n p hp
    rcases List.mem_cons.mp hp with h | h
    · rw [h]
      refine ⟨le_refl n, ?_, rfl, rfl⟩
      simp only [List.length_cons]
      omega
    · rcases ih (n + 1) p h with ⟨h1, h2, h3, h4⟩
      refine ⟨by omega, ?_, h3, h4⟩
      simp only [List.length_cons]
      omega

theorem tagItems_length (ds : List (String × EntryData)) :
    ∀ n, (tagItems n ds).length = ds.length := by
  induction ds with
  | nil => intro n; rfl
  | cons kv rest ih =>
    intro n
    simp [tagItems, ih]

theorem tagItems_keys (ds : List (String × EntryData)) :
    ∀ n p, p ∈ tagItems n ds → p.2.key ∈ ds.map Prod.fst := by
  induction ds with
  | nil => intro n p hp; simp [tagItems] at hp
  | cons kv rest ih =>
    intro n p hp
    rcases List.mem_cons.mp hp with h | h
    · rw [h]; simp
    · simp only [List.map_cons, List.mem_cons]
      exact Or.inr (ih (n + 1) p h)

theorem filterMap_eq_self {α : Type} (F : α → Option α) :
    ∀ l : List α, (∀ x ∈ l, F x = some x) → l.filterMap F = l := by
  intro l
  induction l with
  | nil => intro _; rfl
  | cons a rest ih =>
    intro h
    rw [List.filterMap_cons, h a (by simp), ih (fun x hx => h x (by simp [hx]))]

/-! ## The relink loop -/

theorem relinkFold_spec (ids : List Nat) : ∀ (c : Cache) (p : Nat),
    (p :: ids).Nodup → (∀ x ∈ p :: ids, (c.heapGet x).isSome) →
    ∃ c' q, ids.foldl relinkStep (c, some p) = (c', some q) ∧
      lastOr ids (some p) = some q ∧
      c'.tail = c.tail ∧ c'.head = lastOr ids c.head ∧
      c'.entries = c.entries ∧ c'.maxSize = c.maxSize ∧
      c'.evictionPolicy = c.evictionPolicy ∧ c'.freshId = c.freshId ∧
      c'.heap.map Prod.fst = c.heap.map Prod.fst ∧
      sameData c c' ∧
      (∀ x, x ∉ p :: ids → c'.heapGet x = c.heapGet x) ∧
      (∀ dp dl, c.heapGet p = some dp → c.heapGet q = some dl →
        seg c' dp.previous (p :: ids) dl.next = true) := by
  induction ids with
  | nil =>
    intro c p hnd hsome
    refine ⟨c, p, rfl, rfl, rfl, rfl, rfl, rfl, rfl, rfl, rfl, sameData_refl c,
      fun x _ => rfl, ?_⟩
    intro dp dl hdp hdl
    have hdpl : dp = dl := by
      rw [hdp] at hdl
      exact Option.some_injective _ hdl
    subst hdpl
    rw [seg_cons_iff]
    exact ⟨dp, hdp, rfl, rfl, rfl⟩
  | cons e rest ih =>
    intro c p hnd hsome
    have hpe : p ≠ e := by
      intro h
      exact (List.nodup_cons.mp hnd).1 (h ▸ List.mem_cons_self e rest)
    have hpr : p ∉ e :: rest := (List.nodup_cons.mp hnd).1
    have hnd' : (e :: rest).Nodup := (List.nodup_cons.mp hnd).2
    set c1 : Cache := { ((c.heapModify p (fun pd => { pd with next := some e })).heapModify e
      (fun ed => { ed with previous := some p })) with head := some e } with hc1
    have hstep : relinkStep (c, some p) e = (c1, some e) := rfl
    have hsome1 : ∀ x ∈ e :: rest, (c1.heapGet x).isSome := by
      intro x hx
      have hxs := hsome x (List.mem_cons_of_mem p hx)
      by_cases hxe : x = e
      · show (((c.heapModify p (fun pd => { pd with next := some e })).heapModify e
          (fun ed => { ed with previous := some p })).heapGet x).isSome
        rw [hxe, heapGet_modify_self, heapGet_modify_ne _ _ _ _ (Ne.symm hpe)]
        have hxs' := hxs
        rw [hxe] at hxs'
        cases hg : c.heapGet e
        · rw [hg] at hxs'; cases hxs'
        · simp
      · by_cases hxp : x = p
        · exact absurd (hxp ▸ hx) hpr
        · show ((((c.heapModify p (fun pd => { pd with next := some e })).heapModify e
            (fun ed => { ed with previous := some p }))).heapGet x).isSome
          rw [heapGet_modify_ne _ _ _ _ hxe, heapGet_modify_ne _ _ _ _ hxp]
          exact hxs
    obtain ⟨c', q, hfold, hlast, htail, hhead, hent, hmax, hpol, hfresh, hmap, hsd, hframe,
      hseg⟩ := ih c1 e hnd' hsome1
    have hfr_pe : ∀ x, x ≠ e → x ≠ p → c1.heapGet x = c.heapGet x := by
      intro x hxe hxp
      show (((c.heapModify p (fun pd => { pd with next := some e })).heapModify e
        (fun ed => { ed with previous := some p }))).heapGet x = c.heapGet x
      rw [heapGet_modify_ne _ _ _ _ hxe, heapGet_modify_ne _ _ _ _ hxp]
    have hg1p : ∀ dp, c.heapGet p = some dp →
        c1.heapGet p = some { dp with next := some e } := by
      intro dp hdp
      show (((c.heapModify p (fun pd => { pd with next := some e })).heapModify e
        (fun ed => { ed with previous := some p }))).heapGet p = _
      rw [heapGet_modify_ne _ _ _ _ hpe, heapGet_modify_self, hdp]
      rfl
    have hg1e : ∀ de, c.heapGet e = some de →
        c1.heapGet e = some { de with previous := some p } := by
      intro de hde
      show (((c.heapModify p (fun pd => { pd with next := some e })).heapModify e
        (fun ed => { ed with previous := some p }))).heapGet e = _
      rw [heapGet_modify_self, heapGet_modify_ne _ _ _ _ (Ne.symm hpe), hde]
      rfl
    refine ⟨c', q, ?_, hlast, ?_, ?_, ?_, ?_, ?_, ?_, ?_, ?_, ?_, ?_⟩
    · rw [List.foldl_cons, hstep]
      exact hfold
    · rw [htail]; rfl
    · rw [hhead]; rfl
    · rw [hent]; rfl
    · rw [hmax]; rfl
    · rw [hpol]; rfl
    · rw [hfresh]; rfl
    · rw [hmap]
      show (heapSet (heapSet c.heap p _) e _).map Prod.fst = c.heap.map Prod.fst
      rw [heapSet_map_fst, heapSet_map_fst]
    · refine sameData_trans ?_ hsd
      refine sameData_trans
        (sameData_modify_link c p (fun pd => { pd with next := some e }) (fun _ => rfl)) ?_
      exact sameData_trans
        (sameData_modify_link (c.heapModify p (fun pd => { pd with next := some e })) e
          (fun ed => { ed with previous := some p }) (fun _ => rfl))
        (fun i => rfl)
    · intro x hx
      have hxp : x ≠ p := fun h => hx (by rw [h]; exact List.mem_cons_self p _)
      have hxer : x ∉ e :: rest := fun h => hx (List.mem_cons_of_mem p h)
      have hxe : x ≠ e := fun h => hxer (by rw [h]; exact List.mem_cons_self e rest)
      rw [hframe x hxer]
      exact hfr_pe x hxe hxp
    · intro dp dl hdp hdl
      have hql : q ∈ e :: rest :=
        lastOr_eq_some_mem (e :: rest) (some p) q (by simp) hlast
      have hqp : q ≠ p := fun h => hpr (h ▸ hql)
      have hdeE : ∃ de, c.heapGet e = some de := by
        have hs := hsome e (by simp)
        cases hg : c.heapGet e
        · rw [hg] at hs; cases hs
        · exact ⟨_, rfl⟩
      rcases hdeE with ⟨de, hdeg⟩
      rw [seg_cons_iff]
      refine ⟨{ dp with next := some e }, ?_, rfl, ?_, ?_⟩
      · rw [hframe p hpr]
        exact hg1p dp hdp
      · show some e = headOr (e :: rest) dl.next
        rfl
      · by_cases hqe : q = e
        · subst hqe
          have hdl_de : dl = de := by
            rw [hdeg] at hdl
            exact (Option.some_injective _ hdl).symm
          subst hdl_de
          exact hseg { dl with previous := some p } { dl with previous := some p }
            (hg1e dl hdeg) (hg1e dl hdeg)
        · have hdl1 : c1.heapGet q = some dl := (hfr_pe q hqe hqp).trans hdl
          exact hseg { de with previous := some p } dl (hg1e de hdeg) hdl1

theorem relinkAll_spec (c : Cache) (a : Nat) (rest : List Nat)
    (hnd : (a :: rest).Nodup) (hsome : ∀ x ∈ a :: rest, (c.heapGet x).isSome) :
    ∃ c' q, relinkAll c (a :: rest) = c' ∧ lastOr rest (some a) = some q ∧
      c'.tail = some a ∧ c'.head = some q ∧
      c'.entries = c.entries ∧ c'.maxSize = c.maxSize ∧
      c'.evictionPolicy = c.evictionPolicy ∧ c'.freshId = c.freshId ∧
      c'.heap.map Prod.fst = c.heap.map Prod.fst ∧
      sameData c c' ∧
      (∀ x, x ∉ a :: rest → c'.heapGet x = c.heapGet x) ∧
      (∀ da dq, c.heapGet a = some da → c.heapGet q = some dq →
        seg c' da.previous (a :: rest) dq.next = true) := by
  have hsome0 : ∀ x ∈ a :: rest,
      (({ c with tail := some a, head := some a } : Cache).heapGet x).isSome :=
    fun x hx => hsome x hx
  obtain ⟨c', q, hfold, hlast, htail, hhead, hent, hmax, hpol, hfresh, hmap, hsd, hframe,
    hseg⟩ := relinkFold_spec rest ({ c with tail := some a, head := some a } : Cache) a
      hnd hsome0
  refine ⟨c', q, ?_, hlast, ?_, ?_, hent, hmax, hpol, hfresh, hmap,
    sameData_trans (fun i => rfl) hsd, hframe, hseg⟩
  · show (List.foldl relinkStep (relinkStep (c, none) a) rest).1 = c'
    rw [show relinkStep (c, none) a
      = (({ c with tail := some a, head := some a } : Cache), some a) from rfl, hfold]
  · rw [htail]
  · rw [hhead]
    exact hlast

theorem evictUntil_stop (fuel : Nat) (c : Cache)
    (hguard : ¬ c.maxSize < (c.entries.length : Int)) :
    evictUntil c fuel = some (0, c) := by
  unfold evictUntil
  rw [if_neg hguard]

theorem evictUntil_spec : ∀ (fuel : Nat) (ids : List Nat) (c : Cache),
    Wf c ids → 1 ≤ c.maxSize → ids.length ≤ fuel →
    ∃ c', evictUntil c fuel = some (ids.length - c.maxSize.toNat, c') ∧
      Wf c' (ids.drop (ids.length - c.maxSize.toNat)) ∧
      c'.maxSize = c.maxSize ∧ c'.evictionPolicy = c.evictionPolicy ∧
      c'.freshId = c.freshId ∧ c'.heap.map Prod.fst = c.heap.map Prod.fst ∧
      sameData c c' ∧
      (∀ k, idxFind c.entries k = none → idxFind c'.entries k = none) ∧
      (∀ e ∈ ids.take (ids.length - c.maxSize.toNat), ∀ d, c.heapGet e = some d →
        idxFind c'.entries d.key = none) := by
  intro fuel
  induction fuel with
  | zero =>
    intro ids c hwf hms hlen
    have hids : ids = [] := List.length_eq_zero.mp (Nat.le_zero.mp hlen)
    subst hids
    have hent0 : c.entries.length = 0 := by
      obtain ⟨-, -, -, -, h5, -⟩ := hwf
      simpa using h5
    have hguard : ¬ c.maxSize < (c.entries.length : Int) := by
      rw [hent0]
      push_cast
      omega
    refine ⟨c, ?_, ?_, rfl, rfl, rfl, rfl, sameData_refl c, fun k h => h, by simp⟩
    · rw [evictUntil_stop 0 c hguard]
      simp
    · simpa using hwf
  | succ fuel ih =>
    intro ids c hwf hms hlen
    have hwfKeep := hwf
    obtain ⟨hnd, htail, hhead, hseg, hlen5, hknd, hentc, hidsc, hfreshc, hhndc, hmax11⟩ := hwf
    have hmfact : ((c.maxSize.toNat : Int)) = c.maxSize := Int.toNat_of_nonneg hmax11
    by_cases hguard : c.maxSize < (c.entries.length : Int)
    · have hmL : c.maxSize.toNat < ids.length := by
        have h1 : ((c.maxSize.toNat : Int)) < ((ids.length : Int)) := by
          rw [hmfact, ← hlen5]
          exact_mod_cast hguard
        exact_mod_cast h1
      have h1m : 1 ≤ c.maxSize.toNat := by
        have h2 : (1 : Int) ≤ ((c.maxSize.toNat : Int)) := by
          rw [hmfact]
          exact hms
        exact_mod_cast h2
      cases ids with
      | nil => simp at hmL
      | cons a tl =>
        cases tl with
        | nil =>
          simp only [List.length_cons, List.length_nil] at hmL
          omega
        | cons b rest =>
          obtain ⟨c1, da, hgda, hrunE, hwf1, hent1, hlen1, hfind1, hfindne1, hmax1, hpol1,
            hfresh1, hmap1, hsd1⟩ := evict_spec c a b rest hwfKeep
          have hms1 : 1 ≤ c1.maxSize := by
            rw [hmax1]
            exact hms
          have hlenrec : (b :: rest).length ≤ fuel := by
            simp only [List.length_cons] at hlen ⊢
            omega
          obtain ⟨c', hrunRec, hwfR, hmaxR, hpolR, hfreshR, hmapR, hsdR, hnoneR, htakeR⟩ :=
            ih (b :: rest) c1 hwf1 hms1 hlenrec
          rw [hmax1] at hrunRec hmaxR hwfR htakeR
          have hN : (a :: b :: rest).length - c.maxSize.toNat
              = ((b :: rest).length - c.maxSize.toNat) + 1 := by
            simp only [List.length_cons] at hmL ⊢
            omega
          have hnone1 : ∀ k, idxFind c.entries k = none → idxFind c1.entries k = none := by
            intro k hk
            rw [hent1]
            by_cases hkd : k = da.key
            · rw [hkd]
              exact idxFind_erase_self _ _
            · rw [idxFind_erase_ne _ _ _ hkd]
              exact hk
          have hkey1 : ∀ i, (c1.heapGet i).map EntryData.key
              = (c.heapGet i).map EntryData.key := sameData_key c c1 hsd1
          refine ⟨c', ?_, ?_, hmaxR, hpolR.trans hpol1, hfreshR.trans hfresh1,
            hmapR.trans hmap1, sameData_trans hsd1 hsdR, ?_, ?_⟩
          · rw [hN]
            unfold evictUntil
            rw [if_pos hguard]
            simp [hrunE, hrunRec]
          · rw [hN, List.drop_succ_cons]
            exact hwfR
          · intro k hk
            exact hnoneR k (hnone1 k hk)
          · intro e he d hd
            rw [hN, List.take_succ_cons] at he
            rcases List.mem_cons.mp he with he1 | he2
            · rw [he1] at hd
              rw [hgda] at hd
              have hdd : d = da := (Option.some_injective _ hd).symm
              rw [hdd]
              exact hnoneR da.key hfind1
            · have hkmap : (c1.heapGet e).map EntryData.key = some d.key := by
                rw [hkey1 e, hd]
                rfl
              cases hge1 : c1.heapGet e with
              | none =>
                rw [hge1] at hkmap
                cases hkmap
              | some d1 =>
                rw [hge1] at hkmap
                have hk1 : d1.key = d.key := Option.some_injective _ hkmap
                rw [← hk1]
                exact htakeR e he2 d1 hge1
    · have hn0 : ids.length - c.maxSize.toNat = 0 := by
        have h2 : ((ids.length : Int)) ≤ ((c.maxSize.toNat : Int)) := by
          rw [hmfact, ← hlen5]
          exact_mod_cast not_lt.mp hguard
        have h3 : ids.length ≤ c.maxSize.toNat := by exact_mod_cast h2
        omega
      refine ⟨c, ?_, ?_, rfl, rfl, rfl, rfl, sameData_refl c, fun k h => h, ?_⟩
      · rw [hn0]
        exact evictUntil_stop (fuel + 1) c hguard
      · rw [hn0, List.drop_zero]
        exact hwfKeep
      · rw [hn0]
        simp

theorem sortByTs_perm (l : List (Nat × EntryData)) : (sortByTs l).Perm l :=
  List.perm_insertionSort tsLe l

theorem sortByTs_sorted (l : List (Nat × EntryData)) : List.Sorted tsLe (sortByTs l) :=
  List.sorted_insertionSort tsLe l

/-! ## The decoded-and-relinked state -/

theorem tagIds_map_fst (ds : List (String × EntryData)) :
    ∀ n, (tagIds n ds).map Prod.fst = ds.map Prod.fst := by
  induction ds with
  | nil => intro n; rfl
  | cons kv rest ih =>
    intro n
    show kv.1 :: (tagIds (n + 1) rest).map Prod.fst = kv.1 :: rest.map Prod.fst
    rw [ih (n + 1)]

theorem tagIds_map_snd (ds : List (String × EntryData)) :
    ∀ n, (tagIds n ds).map Prod.snd = (tagItems n ds).map Prod.fst := by
  induction ds with
  | nil => intro n; rfl
  | cons kv rest ih =>
    intro n
    show n :: (tagIds (n + 1) rest).map Prod.snd = n :: (tagItems (n + 1) rest).map Prod.fst
    rw [ih (n + 1)]

theorem idxFind_none_iff (l : List (String × Nat)) (k : String) :
    idxFind l k = none ↔ k ∉ l.map Prod.fst := by
  constructor
  · intro h hmem
    have hs := idxFind_isSome_of_mem_fst l k hmem
    rw [h] at hs
    simp at hs
  · intro h
    cases hf : idxFind l k with
    | none => rfl
    | some e => exact absurd (List.mem_map_of_mem Prod.fst (idxFind_mem l k e hf)) h

theorem idxFind_append_none (A B : List (String × Nat)) (k : String)
    (h : idxFind A k = none) : idxFind (A ++ B) k = idxFind B k := by
  induction A with
  | nil => rfl
  | cons q rest ih =>
    rw [idxFind_cons] at h
    by_cases hq : q.1 = k
    · rw [if_pos hq] at h
      cases h
    · rw [if_neg hq] at h
      rw [List.cons_append, idxFind_cons, if_neg hq]
      exact ih h

theorem eraseAll_sublist (ks : List String) : ∀ l, (eraseAll l ks).Sublist l := by
  induction ks with
  | nil => intro l; exact List.Sublist.refl l
  | cons k ks ih =>
    intro l
    exact (ih (idxErase l k)).trans (idxErase_sublist l k)

theorem indexPairs_mem (c : Cache) (p : Nat × EntryData) (hp : p ∈ indexPairs c) :
    c.heapGet p.1 = some p.2 ∧ p.1 ∈ c.entries.map Prod.snd := by
  rw [indexPairs] at hp
  rcases List.mem_filterMap.mp hp with ⟨q, hq, hfq⟩
  cases hg : c.heapGet q.2 with
  | none =>
    rw [hg] at hfq
    cases hfq
  | some d =>
    rw [hg] at hfq
    simp only [Option.map_some'] at hfq
    have hqd : (q.2, d) = p := Option.some_injective _ hfq
    constructor
    · rw [← hqd]
      exact hg
    · rw [← hqd]
      exact List.mem_map_of_mem Prod.snd hq

theorem filterMap_pairs_map_fst (c : Cache) : ∀ l : List (String × Nat),
    (∀ p ∈ l, (c.heapGet p.2).isSome) →
    (l.filterMap (fun p => (c.heapGet p.2).map (fun d => (p.2, d)))).map Prod.fst
      = l.map Prod.snd := by
  intro l
  induction l with
  | nil => intro _; rfl
  | cons q rest ih =>
    intro h
    cases hg : c.heapGet q.2 with
    | none =>
      have hs := h q (by simp)
      rw [hg] at hs
      simp at hs
    | some d =>
      simp only [List.filterMap_cons, hg, Option.map_some', List.map_cons]
      rw [ih (fun p hp => h p (by simp [hp]))]

theorem indexPairs_map_fst_of_total (c : Cache)
    (h : ∀ p ∈ c.entries, (c.heapGet p.2).isSome) :
    (indexPairs c).map Prod.fst = c.entries.map Prod.snd :=
  filterMap_pairs_map_fst c c.entries h

theorem wf_entries_snd_nodup (c : Cache) (ids : List Nat) (hwf : Wf c ids) :
    (c.entries.map Prod.snd).Nodup := by
  obtain ⟨-, -, -, -, -, hknd, hent, -⟩ := hwf
  have hlnd : c.entries.Nodup := hknd.of_map
  refine List.Nodup.map_on ?_ hlnd
  intro p hp q hq hpq
  have h1 := (hent p hp).2
  have h2 := (hent q hq).2
  rw [← hpq] at h2
  rw [h1] at h2
  exact Prod.ext (Option.some_injective _ h2) hpq

theorem tagItems_of_mem (ds : List (String × EntryData)) (kv : String × EntryData) :
    kv ∈ ds → ∀ n, ∃ i,
      (i, { kv.2 with key := kv.1, previous := none, next := none }) ∈ tagItems n ds := by
  induction ds with
  | nil => intro h; cases h
  | cons kv0 rest ih =>
    intro h n
    rcases List.mem_cons.mp h with h0 | h1
    · refine ⟨n, ?_⟩
      rw [h0]
      exact List.mem_cons_self _ _
    · rcases ih h1 (n + 1) with ⟨i, hi⟩
      exact ⟨i, List.mem_cons_of_mem _ hi⟩

theorem heapFind_mem (h : List (Nat × EntryData)) (i : Nat) (d : EntryData)
    (hf : heapFind h i = some d) : (i, d) ∈ h := by
  induction h with
  | nil => cases hf
  | cons q rest ih =>
    rw [heapFind_cons] at hf
    by_cases hq : q.1 = i
    · rw [if_pos hq] at hf
      have hqd : q.2 = d := Option.some_injective _ hf
      rw [← hq, ← hqd]
      exact List.mem_cons_self q rest
    · rw [if_neg hq] at hf
      exact List.mem_cons_of_mem q (ih hf)

theorem indexPairs_of_tagged (c1 : Cache) (items : List (Nat × EntryData))
    (hent : c1.entries = items.map (fun p => (p.2.key, p.1)))
    (hfind : ∀ p ∈ items, c1.heapGet p.1 = some p.2) :
    indexPairs c1 = items := by
  rw [indexPairs, hent, List.filterMap_map]
  refine filterMap_eq_self _ items ?_
  intro p hp
  show (c1.heapGet p.1).map (fun d => (p.1, d)) = some p
  rw [hfind p hp]
  rfl

/-- The state after ReadFromFile's decode, sort and relink phases, starting
from any well-formed cache: the index is the merge of the snapshot bindings
with the surviving old bindings, the chain ids are exactly the index ids
sorted by relevantTimestamp (oldest first = tail), every structural-invariant
conjunct holds except that the boundary link fields of the chain keep
whatever the first and last records held before relinking (the source never
writes the first entry's previous nor the last entry's next). -/
theorem restore_merge_spec (c : Cache) (ids0 : List Nat) (ds : List (String × EntryData))
    (hwf : Wf c ids0) (hnd : (ds.map Prod.fst).Nodup) (hne : ds ≠ []) :
    ∃ sorted a rest c2 q,
      sortByTs (indexPairs (decodeInto c ds)) = sorted ∧
      sorted.map Prod.fst = a :: rest ∧
      relinkAll (decodeInto c ds) (sorted.map Prod.fst) = c2 ∧
      List.Sorted tsLe sorted ∧
      sorted.Perm (indexPairs (decodeInto c ds)) ∧
      (∀ p ∈ sorted, (decodeInto c ds).heapGet p.1 = some p.2) ∧
      c2.entries = (tagIds c.freshId ds).reverse ++ eraseAll c.entries (ds.map Prod.fst) ∧
      c2.maxSize = c.maxSize ∧ c2.evictionPolicy = c.evictionPolicy ∧
      c2.freshId = c.freshId + ds.length ∧
      c2.entries.length = (a :: rest).length ∧
      (a :: rest).Nodup ∧
      (c2.entries.map Prod.fst).Nodup ∧
      c2.tail = some a ∧
      lastOr rest (some a) = some q ∧ c2.head = some q ∧
      (∃ da dq, (decodeInto c ds).heapGet a = some da ∧
        (decodeInto c ds).heapGet q = some dq ∧
        seg c2 da.previous (a :: rest) dq.next = true) ∧
      sameData (decodeInto c ds) c2 ∧
      (∀ e d, heapFind c.heap e = some d → (decodeInto c ds).heapGet e = some d) ∧
      (∀ p ∈ tagItems c.freshId ds, (decodeInto c ds).heapGet p.1 = some p.2) ∧
      (∀ p ∈ c2.entries, p.2 ∈ a :: rest ∧ (c2.heapGet p.2).map EntryData.key = some p.1) ∧
      (∀ e ∈ a :: rest,
        ((c2.heapGet e).map EntryData.key).bind (idxFind c2.entries) = some e) ∧
      (∀ p ∈ c2.heap, p.1 < c2.freshId) ∧
      (c2.heap.map Prod.fst).Nodup ∧
      (a :: rest).Perm (c2.entries.map Prod.snd) := by
  obtain ⟨hnd0, htail0, hhead0, hseg0, hlen0, hknd0, hent0, hids0, hfresh0, hhnd0, hmax0⟩ :=
    hwf
  have hwfK : Wf c ids0 :=
    ⟨hnd0, htail0, hhead0, hseg0, hlen0, hknd0, hent0, hids0, hfresh0, hhnd0, hmax0⟩
  have hc1 : decodeInto c ds = { c with
      heap := (tagItems c.freshId ds).reverse ++ c.heap
      entries := (tagIds c.freshId ds).reverse ++ eraseAll c.entries (ds.map Prod.fst)
      freshId := c.freshId + ds.length } := decodeInto_spec ds c hnd
  have hheap1 : (decodeInto c ds).heap = (tagItems c.freshId ds).reverse ++ c.heap := by
    rw [hc1]
  have hent1 : (decodeInto c ds).entries
      = (tagIds c.freshId ds).reverse ++ eraseAll c.entries (ds.map Prod.fst) := by
    rw [hc1]
  have hfresh1 : (decodeInto c ds).freshId = c.freshId + ds.length := by rw [hc1]
  have hmax1 : (decodeInto c ds).maxSize = c.maxSize := by rw [hc1]
  have hpol1 : (decodeInto c ds).evictionPolicy = c.evictionPolicy := by rw [hc1]
  have hAfst : (tagItems c.freshId ds).reverse.map Prod.fst
      = (List.range' c.freshId ds.length).reverse := by
    rw [List.map_reverse, tagItems_map_fst ds c.freshId]
  have holdid : ∀ x ∈ c.heap.map Prod.fst, x < c.freshId := by
    intro x hx
    rcases List.mem_map.mp hx with ⟨p, hp, hpx⟩
    rw [← hpx]
    exact hfresh0 p hp
  have hheapfst : (decodeInto c ds).heap.map Prod.fst
      = (List.range' c.freshId ds.length).reverse ++ c.heap.map Prod.fst := by
    rw [hheap1, List.map_append, hAfst]
  have hhnd1 : ((decodeInto c ds).heap.map Prod.fst).Nodup := by
    rw [hheapfst, List.nodup_append]
    refine ⟨List.nodup_reverse.mpr (List.nodup_range' _ _), hhnd0, ?_⟩
    intro x hxA hxB
    have hxge : c.freshId ≤ x := (List.mem_range'_1.mp (List.mem_reverse.mp hxA)).1
    have hxlt : x < c.freshId := holdid x hxB
    omega
  have hold : ∀ e d, heapFind c.heap e = some d → (decodeInto c ds).heapGet e = some d := by
    intro e d hf
    have hmem : (e, d) ∈ (decodeInto c ds).heap := by
      rw [hheap1]
      exact List.mem_append_right _ (heapFind_mem c.heap e d hf)
    exact (heapFind_eq_some_iff _ e d hhnd1).mpr hmem
  have hnew : ∀ p ∈ tagItems c.freshId ds, (decodeInto c ds).heapGet p.1 = some p.2 := by
    intro p hp
    have hmem : (p.1, p.2) ∈ (decodeInto c ds).heap := by
      rw [hheap1]
      exact List.mem_append_left _ (List.mem_reverse.mpr hp)
    exact (heapFind_eq_some_iff _ _ _ hhnd1).mpr hmem
  have hres : ∀ p ∈ (decodeInto c ds).entries,
      ∃ d, (decodeInto c ds).heapGet p.2 = some d ∧ d.key = p.1 := by
    intro p hp
    rw [hent1] at hp
    rcases List.mem_append.mp hp with hpE | hpO
    · have hpE' : p ∈ tagIds c.freshId ds := List.mem_reverse.mp hpE
      rw [tagIds] at hpE'
      rcases List.mem_map.mp hpE' with ⟨t, ht, htp⟩
      refine ⟨t.2, ?_, ?_⟩
      · rw [← htp]
        exact hnew t ht
      · rw [← htp]
    · have hpc : p ∈ c.entries := (eraseAll_sublist (ds.map Prod.fst) c.entries).subset hpO
      rcases hent0 p hpc with ⟨-, hkey⟩
      cases hg : c.heapGet p.2 with
      | none =>
        rw [hg] at hkey
        cases hkey
      | some d =>
        rw [hg] at hkey
        simp only [Option.map_some'] at hkey
        exact ⟨d, hold p.2 d hg, Option.some_injective _ hkey⟩
  have hsnd0 : (c.entries.map Prod.snd).Nodup := wf_entries_snd_nodup c ids0 hwfK
  have holdsnd : ∀ x ∈ c.entries.map Prod.snd, x < c.freshId := by
    intro x hx
    rcases List.mem_map.mp hx with ⟨p, hp, hpx⟩
    rcases hent0 p hp with ⟨-, hkey⟩
    cases hg : c.heapGet p.2 with
    | none =>
      rw [hg] at hkey
      cases hkey
    | some d =>
      rw [← hpx]
      exact holdid p.2 (heapFind_mem_fst c.heap p.2 d hg)
  have hEsnd : (tagIds c.freshId ds).reverse.map Prod.snd
      = (List.range' c.freshId ds.length).reverse := by
    rw [List.map_reverse, tagIds_map_snd ds c.freshId, tagItems_map_fst ds c.freshId]
  have hsnd1 : ((decodeInto c ds).entries.map Prod.snd).Nodup := by
    rw [hent1, List.map_append, hEsnd, List.nodup_append]
    refine ⟨List.nodup_reverse.mpr (List.nodup_range' _ _),
      List.Nodup.sublist ((eraseAll_sublist _ _).map Prod.snd) hsnd0, ?_⟩
    intro x hxA hxB
    have hxge : c.freshId ≤ x := (List.mem_range'_1.mp (List.mem_reverse.mp hxA)).1
    rcases List.mem_map.mp hxB with ⟨p, hp, hpx⟩
    have hpc : p ∈ c.entries := (eraseAll_sublist _ _).subset hp
    have hxlt : x < c.freshId := by
      rw [← hpx]
      exact holdsnd p.2 (List.mem_map_of_mem Prod.snd hpc)
    omega
  have hknd1 : ((decodeInto c ds).entries.map Prod.fst).Nodup := by
    rw [hent1, List.map_append]
    rw [show (tagIds c.freshId ds).reverse.map Prod.fst = (ds.map Prod.fst).reverse by
      rw [List.map_reverse, tagIds_map_fst ds c.freshId]]
    rw [List.nodup_append]
    refine ⟨List.nodup_reverse.mpr hnd,
      List.Nodup.sublist ((eraseAll_sublist _ _).map Prod.fst) hknd0, ?_⟩
    intro k hkA hkB
    have hkks : k ∈ ds.map Prod.fst := List.mem_reverse.mp hkA
    have hfind := idxFind_isSome_of_mem_fst _ k hkB
    rw [eraseAll_find (ds.map Prod.fst) c.entries k, if_pos hkks] at hfind
    simp at hfind
  have htot : ∀ p ∈ (decodeInto c ds).entries, ((decodeInto c ds).heapGet p.2).isSome := by
    intro p hp
    rcases hres p hp with ⟨d, hd, -⟩
    rw [hd]
    rfl
  have hipfst : (indexPairs (decodeInto c ds)).map Prod.fst
      = (decodeInto c ds).entries.map Prod.snd := indexPairs_map_fst_of_total _ htot
  have hperm0 : (sortByTs (indexPairs (decodeInto c ds))).Perm
      (indexPairs (decodeInto c ds)) := sortByTs_perm _
  have hidsperm : ((sortByTs (indexPairs (decodeInto c ds))).map Prod.fst).Perm
      ((decodeInto c ds).entries.map Prod.snd) := by
    rw [← hipfst]
    exact hperm0.map Prod.fst
  have hidsnd : ((sortByTs (indexPairs (decodeInto c ds))).map Prod.fst).Nodup :=
    (hidsperm.nodup_iff).mpr hsnd1
  have hlenE : (decodeInto c ds).entries.length
      = ds.length + (eraseAll c.entries (ds.map Prod.fst)).length := by
    rw [hent1, List.length_append, List.length_reverse]
    rw [show (tagIds c.freshId ds).length = ds.length by
      rw [tagIds, List.length_map, tagItems_length ds c.freshId]]
  have hlenids : ((sortByTs (indexPairs (decodeInto c ds))).map Prod.fst).length
      = (decodeInto c ds).entries.length := by
    rw [hidsperm.length_eq, List.length_map]
  have hpos : 0 < ((sortByTs (indexPairs (decodeInto c ds))).map Prod.fst).length := by
    rw [hlenids, hlenE]
    have hd0 : ds.length ≠ 0 := fun h => hne (List.length_eq_zero.mp h)
    omega
  have hsortedmem : ∀ p ∈ sortByTs (indexPairs (decodeInto c ds)),
      (decodeInto c ds).heapGet p.1 = some p.2 := by
    intro p hp
    exact (indexPairs_mem _ p ((hperm0.mem_iff).mp hp)).1
  cases hids : (sortByTs (indexPairs (decodeInto c ds))).map Prod.fst with
  | nil =>
    rw [hids] at hpos
    simp at hpos
  | cons a rest =>
    rw [hids] at hidsnd hidsperm hlenids
    have hsome : ∀ x ∈ a :: rest, ((decodeInto c ds).heapGet x).isSome := by
      intro x hx
      rw [← hids] at hx
      rcases List.mem_map.mp hx with ⟨p, hp, hpx⟩
      rw [← hpx, hsortedmem p hp]
      rfl
    obtain ⟨c2, q, hrel, hlast, htail2, hhead2, hent2, hmax2, hpol2, hfresh2, hmap2, hsd2,
      hframe2, hseg2⟩ := relinkAll_spec (decodeInto c ds) a rest hidsnd hsome
    have hqmem : q ∈ a :: rest := lastOr_eq_some_mem (a :: rest) none q (by simp) hlast
    obtain ⟨da, hda⟩ := Option.isSome_iff_exists.mp (hsome a (List.mem_cons_self a rest))
    obtain ⟨dq, hdq⟩ := Option.isSome_iff_exists.mp (hsome q hqmem)
    have hsegfin : seg c2 da.previous (a :: rest) dq.next = true := hseg2 da dq hda hdq
    have hc2get : ∀ i, (c2.heapGet i).map EntryData.key
        = ((decodeInto c ds).heapGet i).map EntryData.key := sameData_key _ c2 hsd2
    have hentm : ∀ p ∈ c2.entries,
        p.2 ∈ a :: rest ∧ (c2.heapGet p.2).map EntryData.key = some p.1 := by
      intro p hp
      rw [hent2] at hp
      rcases hres p hp with ⟨d, hd, hdk⟩
      refine ⟨(hidsperm.mem_iff).mpr (List.mem_map_of_mem Prod.snd hp), ?_⟩
      rw [hc2get p.2, hd, Option.map_some', hdk]
    have hfindm : ∀ e ∈ a :: rest,
        ((c2.heapGet e).map EntryData.key).bind (idxFind c2.entries) = some e := by
      intro e he
      have hes : e ∈ (decodeInto c ds).entries.map Prod.snd := (hidsperm.mem_iff).mp he
      rcases List.mem_map.mp hes with ⟨p, hp, hpe⟩
      rcases hres p hp with ⟨d, hd, hdk⟩
      rw [← hpe, hc2get p.2, hd, Option.map_some', hdk]
      show idxFind c2.entries p.1 = some p.2
      rw [hent2]
      exact (idxFind_eq_some_iff _ p.1 p.2 hknd1).mpr hp
    have hhlt : ∀ p ∈ c2.heap, p.1 < c2.freshId := by
      intro p hp
      have hp1 : p.1 ∈ c2.heap.map Prod.fst := List.mem_map_of_mem Prod.fst hp
      rw [hmap2, hheapfst] at hp1
      rw [hfresh2, hfresh1]
      rcases List.mem_append.mp hp1 with h | h
      · have hb := List.mem_range'_1.mp (List.mem_reverse.mp h)
        omega
      · have hb := holdid p.1 h
        omega
    refine ⟨sortByTs (indexPairs (decodeInto c ds)), a, rest, c2, q, rfl, hids, ?_,
      sortByTs_sorted _, hperm0, hsortedmem, hent2.trans hent1, hmax2.trans hmax1,
      hpol2.trans hpol1, hfresh2.trans hfresh1, ?_, hidsnd, ?_, htail2, hlast, hhead2,
      ⟨da, dq, hda, hdq, hsegfin⟩, hsd2, hold, hnew, hentm, hfindm, hhlt, ?_, ?_⟩
    · rw [hids]
      exact hrel
    · rw [hent2]
      exact hlenids.symm
    · rw [hent2]
      exact hknd1
    · rw [hmap2]
      exact hhnd1
    · rw [hent2]
      exact hidsperm

theorem readFromFile_some (c : Cache) (ds : List (String × EntryData)) :
    readFromFile c (some ds)
      = (if (relinkAll (decodeInto c ds)
            ((sortByTs (indexPairs (decodeInto c ds))).map Prod.fst)).maxSize = NoMaxSize
         then some (Except.ok 0, relinkAll (decodeInto c ds)
            ((sortByTs (indexPairs (decodeInto c ds))).map Prod.fst))
         else (evictUntil (relinkAll (decodeInto c ds)
                ((sortByTs (indexPairs (decodeInto c ds))).map Prod.fst))
              (relinkAll (decodeInto c ds)
                ((sortByTs (indexPairs (decodeInto c ds))).map Prod.fst)).entries.length).bind
            (fun x => some (Except.ok x.1, x.2))) := rfl

/-- C4: restoring a successfully decoded snapshot into a fresh cache whose
configured positive MaxSize is smaller than the snapshot's entry count sorts
the restored entries by relevantTimestamp ascending, relinks them
oldest-to-newest (oldest = tail, newest = head), then applies the
single-entry tail eviction until the count equals MaxSize: it returns
restoredCount - MaxSize, the final chain is the timestamp-sorted order with
its oldest prefix removed, exactly the oldest-by-timestamp entries' keys are
gone from the index, and every survivor is still indexed under its key. -/
theorem c4_restore_sorts_relinks_and_evicts_oldest (mn : Int) (pol : EvictionPolicy)
    (ds : List (String × EntryData)) (hnd : (ds.map Prod.fst).Nodup)
    (hmn : 1 ≤ mn) (hover : mn < (ds.length : Int)) :
    ∃ sorted c3,
      sorted.Perm (tagItems 0 ds) ∧
      List.Sorted tsLe sorted ∧
      readFromFile (Cache.new mn pol) (some ds)
        = some (Except.ok (ds.length - mn.toNat), c3) ∧
      Wf c3 ((sorted.map Prod.fst).drop (ds.length - mn.toNat)) ∧
      c3.count = mn.toNat ∧
      (∀ p ∈ sorted.take (ds.length - mn.toNat), idxFind c3.entries p.2.key = none) ∧
      (∀ p ∈ sorted.drop (ds.length - mn.toNat), idxFind c3.entries p.2.key = some p.1) := by
  have hdlen : 1 < ds.length := by
    have h1 : (1 : Int) < (ds.length : Int) := lt_of_le_of_lt hmn hover
    exact_mod_cast h1
  have hne : ds ≠ [] := by
    intro h
    rw [h] at hdlen
    simp at hdlen
  have hwfnew : Wf (Cache.new mn pol) [] := by
    refine ⟨List.nodup_nil, rfl, rfl, rfl, rfl, List.nodup_nil, ?_, ?_, ?_,
      List.nodup_nil, (show (0 : Int) ≤ mn by omega)⟩
    · intro p hp
      cases hp
    · intro e he
      cases he
    · intro p hp
      cases hp
  obtain ⟨sorted, a, rest, c2, q, hsortdef, hids, hrel, hsorted, hpermIP, hmemIP, hent2,
    hmax2, hpol2, hfresh2, hlen2, hndids, hknd2, htail2, hlast2, hhead2,
    ⟨da, dq, hda, hdq, hsegb⟩, hsd2, hold2, hnew2, hentm2, hfindm2, hhlt2, hhnd2, hperm2⟩ :=
    restore_merge_spec (Cache.new mn pol) [] ds hwfnew hnd hne
  have hc1 := decodeInto_spec ds (Cache.new mn pol) hnd
  have hheapc1 : (decodeInto (Cache.new mn pol) ds).heap = (tagItems 0 ds).reverse := by
    rw [hc1]
    exact List.append_nil _
  have hentc1 : (decodeInto (Cache.new mn pol) ds).entries = (tagIds 0 ds).reverse := by
    rw [hc1]
    show (tagIds 0 ds).reverse ++ eraseAll ([] : List (String × Nat)) (ds.map Prod.fst) = _
    rw [eraseAll_nil_left]
    exact List.append_nil _
  have hhndc1 : ((decodeInto (Cache.new mn pol) ds).heap.map Prod.fst).Nodup := by
    rw [hheapc1, List.map_reverse, tagItems_map_fst ds 0]
    exact List.nodup_reverse.mpr (List.nodup_range' _ _)
  have hfindc1 : ∀ p ∈ (tagItems 0 ds).reverse,
      (decodeInto (Cache.new mn pol) ds).heapGet p.1 = some p.2 := by
    intro p hp
    have hmem : (p.1, p.2) ∈ (decodeInto (Cache.new mn pol) ds).heap := by
      rw [hheapc1]
      exact hp
    exact (heapFind_eq_some_iff _ _ _ hhndc1).mpr hmem
  have hip : indexPairs (decodeInto (Cache.new mn pol) ds) = (tagItems 0 ds).reverse := by
    refine indexPairs_of_tagged _ _ ?_ hfindc1
    rw [hentc1, tagIds, List.map_reverse]
  rw [hip] at hpermIP
  have hpermT : sorted.Perm (tagItems 0 ds) := hpermIP.trans (List.reverse_perm _)
  have hbound : ∀ x dx, (decodeInto (Cache.new mn pol) ds).heapGet x = some dx →
      dx.previous = none ∧ dx.next = none := by
    intro x dx hx
    have hm : (x, dx) ∈ (decodeInto (Cache.new mn pol) ds).heap := heapFind_mem _ x dx hx
    rw [hheapc1] at hm
    have ht := tagItems_mem ds 0 (x, dx) (List.mem_reverse.mp hm)
    exact ⟨ht.2.2.1, ht.2.2.2⟩
  have hwf2 : Wf c2 (a :: rest) := by
    refine ⟨hndids, ?_, ?_, ?_, hlen2, hknd2, hentm2, hfindm2, hhlt2, hhnd2, ?_⟩
    · rw [htail2]
      rfl
    · rw [hhead2]
      exact hlast2.symm
    · have hsegb' := hsegb
      rw [(hbound a da hda).1, (hbound q dq hdq).2] at hsegb'
      exact hsegb'
    · rw [hmax2]
      show (0 : Int) ≤ mn
      omega
  have hms2 : 1 ≤ c2.maxSize := by
    rw [hmax2]
    exact hmn
  obtain ⟨c3, hrun3, hwf3, hmax3, hpol3, hfresh3, hmap3, hsd3, hnone3, htake3⟩ :=
    evictUntil_spec c2.entries.length (a :: rest) c2 hwf2 hms2 (le_of_eq hlen2.symm)
  have hent2' : c2.entries = (tagIds 0 ds).reverse := by
    rw [hent2]
    show (tagIds 0 ds).reverse ++ eraseAll ([] : List (String × Nat)) (ds.map Prod.fst) = _
    rw [eraseAll_nil_left]
    exact List.append_nil _
  have hlc2 : c2.entries.length = ds.length := by
    rw [hent2', List.length_reverse, tagIds, List.length_map, tagItems_length ds 0]
  have hlards : (a :: rest).length = ds.length := hlen2.symm.trans hlc2
  have hmts : c2.maxSize.toNat = mn.toNat := by
    rw [hmax2]
    rfl
  have hmtlt : mn.toNat < ds.length := by
    have h1 : ((mn.toNat : Int)) < (ds.length : Int) := by
      rw [Int.toNat_of_nonneg (by omega : (0 : Int) ≤ mn)]
      exact hover
    exact_mod_cast h1
  rw [hlards, hmts] at hrun3 hwf3 htake3
  have hmnz : ¬ c2.maxSize = NoMaxSize := by
    intro h
    rw [hmax2] at h
    have h' : mn = (0 : Int) := h
    omega
  have hread : readFromFile (Cache.new mn pol) (some ds)
      = some (Except.ok (ds.length - mn.toNat), c3) := by
    rw [readFromFile_some, hsortdef, hrel, if_neg hmnz, hrun3]
    rfl
  have hcount : c3.count = mn.toNat := by
    have hwf3' := hwf3
    obtain ⟨-, -, -, -, hlen3, -⟩ := hwf3'
    show c3.entries.length = mn.toNat
    rw [hlen3, List.length_drop, hlards]
    omega
  have htakeclaim : ∀ p ∈ sorted.take (ds.length - mn.toNat),
      idxFind c3.entries p.2.key = none := by
    intro p hp
    have hpmem : p ∈ sorted := List.mem_of_mem_take hp
    have hg1 : (decodeInto (Cache.new mn pol) ds).heapGet p.1 = some p.2 := hmemIP p hpmem
    have hkey2 : (c2.heapGet p.1).map EntryData.key = some p.2.key := by
      rw [sameData_key _ c2 hsd2 p.1, hg1]
      rfl
    cases hg2 : c2.heapGet p.1 with
    | none =>
      rw [hg2] at hkey2
      cases hkey2
    | some d =>
      rw [hg2, Option.map_some'] at hkey2
      have hdk : d.key = p.2.key := Option.some_injective _ hkey2
      have hp1mem : p.1 ∈ (a :: rest).take (ds.length - mn.toNat) := by
        rw [← hids, ← List.map_take]
        exact List.mem_map_of_mem Prod.fst hp
      rw [← hdk]
      exact htake3 p.1 hp1mem d hg2
  have hdropclaim : ∀ p ∈ sorted.drop (ds.length - mn.toNat),
      idxFind c3.entries p.2.key = some p.1 := by
    intro p hp
    have hpmem : p ∈ sorted := List.mem_of_mem_drop hp
    have hg1 : (decodeInto (Cache.new mn pol) ds).heapGet p.1 = some p.2 := hmemIP p hpmem
    have hkey3 : (c3.heapGet p.1).map EntryData.key = some p.2.key := by
      rw [sameData_key c2 c3 hsd3 p.1, sameData_key _ c2 hsd2 p.1, hg1]
      rfl
    have hp1mem : p.1 ∈ (a :: rest).drop (ds.length - mn.toNat) := by
      rw [← hids, ← List.map_drop]
      exact List.mem_map_of_mem Prod.fst hp
    have hwf3' := hwf3
    obtain ⟨-, -, -, -, -, -, -, hfind3, -⟩ := hwf3'
    have hb := hfind3 p.1 hp1mem
    rw [hkey3] at hb
    exact hb
  refine ⟨sorted, c3, hpermT, hsorted, hread, ?_, hcount, htakeclaim, hdropclaim⟩
  rw [hids]
  exact hwf3

/-- A concrete two-entry snapshot (timestamps 20 and 30) for exercising the
restore path at MaxSize 1. -/
def dsC4 : List (String × EntryData) :=
  [("b",
    { key := "b"
      value := 2
      expiration := NoExpiration
      relevantTimestamp := 20
      previous := none
      next := none }),
   ("c",
    { key := "c"
      value := 3
      expiration := NoExpiration
      relevantTimestamp := 30
      previous := none
      next := none })]

/-- Witness for C4: restoring the two-entry snapshot into a fresh MaxSize-1
FIFO cache (all hypotheses checked concretely). -/
theorem c4_witness :
    ((dsC4.map Prod.fst).Nodup ∧ (1 : Int) ≤ 1 ∧ (1 : Int) < (dsC4.length : Int)) ∧
    (∃ sorted c3,
      sorted.Perm (tagItems 0 dsC4) ∧
      List.Sorted tsLe sorted ∧
      readFromFile (Cache.new 1 EvictionPolicy.FirstInFirstOut) (some dsC4)
        = some (Except.ok (dsC4.length - (1 : Int).toNat), c3) ∧
      Wf c3 ((sorted.map Prod.fst).drop (dsC4.length - (1 : Int).toNat)) ∧
      c3.count = (1 : Int).toNat ∧
      (∀ p ∈ sorted.take (dsC4.length - (1 : Int).toNat),
        idxFind c3.entries p.2.key = none) ∧
      (∀ p ∈ sorted.drop (dsC4.length - (1 : Int).toNat),
        idxFind c3.entries p.2.key = some p.1)) :=
  ⟨⟨by decide, by decide, by decide⟩,
    c4_restore_sorts_relinks_and_evicts_oldest 1 EvictionPolicy.FirstInFirstOut dsC4
      (by decide) (by decide) (by decide)⟩

/-- C9 counterexample: restoring the two-entry snapshot dsC4 (keys "b", "c")
into a cache that holds the pre-existing entry "a" - a key absent from the
snapshot - with MaxSize 1 removes "a": the restore reports two evictions and
afterwards "a" is no longer in the index, refuting "does not remove or
replace the pre-existing entries whose keys are absent from the snapshot".
The merge itself is additive, but the post-restore eviction loop is not. -/
theorem c9_restore_counterexample :
    "a" ∉ dsC4.map Prod.fst ∧
    idxFind ({ cacheA with maxSize := 1 } : Cache).entries "a" = some 0 ∧
    (readFromFile ({ cacheA with maxSize := 1 } : Cache) (some dsC4)).map
      (fun r => Except.toOption r.1) = some (some 2) ∧
    (readFromFile ({ cacheA with maxSize := 1 } : Cache) (some dsC4)).map
      (fun r => idxFind r.2.entries "a") = some none := by
  decide

/-- C9 (amended): when no maximum size is configured, restore is additive:
the decoded snapshot is merged into the existing index (every pre-existing
binding whose key is absent from the snapshot is kept, pointing at an entry
with unchanged key/value/expiration/timestamp), every snapshot key is bound
to a freshly allocated entry carrying the decoded record, the relinked
ordering chain spans the union of old and restored entries (its ids are a
permutation of the merged index's ids, with tail and head the chain's two
ends), and zero evictions are reported.  With a positive MaxSize the
subsequent eviction loop can remove pre-existing entries
(c9_restore_counterexample), so the original unconditional claim fails. -/
theorem c9_amended_restore_merges_into_existing_index (c : Cache) (ids0 : List Nat)
    (ds : List (String × EntryData)) (hwf : Wf c ids0) (hnd : (ds.map Prod.fst).Nodup)
    (hne : ds ≠ []) (hms : c.maxSize = NoMaxSize) :
    ∃ c2 chain,
      readFromFile c (some ds) = some (Except.ok 0, c2) ∧
      (∀ k, k ∉ ds.map Prod.fst → idxFind c2.entries k = idxFind c.entries k) ∧
      (∀ e d, heapFind c.heap e = some d →
        ∃ d2, c2.heapGet e = some d2 ∧ stripLinks d2 = stripLinks d) ∧
      (∀ kv ∈ ds, ∃ e d2, idxFind c2.entries kv.1 = some e ∧ c.freshId ≤ e ∧
        c2.heapGet e = some d2 ∧
        stripLinks d2 = (kv.1, kv.2.value, kv.2.expiration, kv.2.relevantTimestamp)) ∧
      chain ≠ [] ∧ chain.Perm (c2.entries.map Prod.snd) ∧
      c2.tail = headOr chain none ∧ c2.head = lastOr chain none ∧
      (∃ p0 q0, seg c2 p0 chain q0 = true) := by
  obtain ⟨sorted, a, rest, c2, q, hsortdef, hids, hrel, hsorted, hpermIP, hmemIP, hent2,
    hmax2, hpol2, hfresh2, hlen2, hndids, hknd2, htail2, hlast2, hhead2,
    ⟨da, dq, hda, hdq, hsegb⟩, hsd2, hold2, hnew2, hentm2, hfindm2, hhlt2, hhnd2, hperm2⟩ :=
    restore_merge_spec c ids0 ds hwf hnd hne
  have hmz : c2.maxSize = NoMaxSize := by rw [hmax2, hms]
  have hread : readFromFile c (some ds) = some (Except.ok 0, c2) := by
    rw [readFromFile_some, hsortdef, hrel, if_pos hmz]
  refine ⟨c2, a :: rest, hread, ?_, ?_, ?_, by simp, hperm2, ?_, ?_,
    ⟨da.previous, dq.next, hsegb⟩⟩
  · intro k hk
    rw [hent2]
    have hnA : idxFind ((tagIds c.freshId ds).reverse) k = none := by
      rw [idxFind_none_iff, List.map_reverse, tagIds_map_fst ds c.freshId]
      intro hmem
      exact hk (List.mem_reverse.mp hmem)
    rw [idxFind_append_none _ _ _ hnA, eraseAll_find (ds.map Prod.fst) c.entries k,
      if_neg hk]
  · intro e d hf
    have h1 := hold2 e d hf
    have h2 := hsd2 e
    rw [h1] at h2
    cases hg : c2.heapGet e with
    | none =>
      rw [hg] at h2
      cases h2
    | some d2 =>
      rw [hg] at h2
      simp only [Option.map_some'] at h2
      exact ⟨d2, rfl, Option.some_injective _ h2⟩
  · intro kv hkv
    obtain ⟨i, hi⟩ := tagItems_of_mem ds kv hkv c.freshId
    have hge := hnew2 _ hi
    have hbounds := tagItems_mem ds c.freshId _ hi
    have hmemE : (kv.1, i) ∈ c2.entries := by
      rw [hent2]
      refine List.mem_append_left _ (List.mem_reverse.mpr ?_)
      rw [tagIds]
      exact List.mem_map_of_mem _ hi
    have hfindi : idxFind c2.entries kv.1 = some i :=
      (idxFind_eq_some_iff _ _ _ hknd2).mpr hmemE
    have h2 := hsd2 i
    rw [hge] at h2
    cases hg : c2.heapGet i with
    | none =>
      rw [hg] at h2
      cases h2
    | some d2 =>
      rw [hg] at h2
      simp only [Option.map_some'] at h2
      refine ⟨i, d2, hfindi, hbounds.1, hg, ?_⟩
      rw [Option.some_injective _ h2]
      rfl
  · rw [htail2]
    rfl
  · rw [hhead2]
    exact hlast2.symm

/-- Witness for C9's amended theorem: restoring the two-entry snapshot dsC4
into a no-max-size cache already holding entry "a" (all hypotheses checked
concretely). -/
theorem c9_amended_witness :
    (Wf ({ cacheA with maxSize := 0 } : Cache) [0] ∧ (dsC4.map Prod.fst).Nodup ∧
      dsC4 ≠ [] ∧ ({ cacheA with maxSize := 0 } : Cache).maxSize = NoMaxSize) ∧
    (∃ c2 chain,
      readFromFile ({ cacheA with maxSize := 0 } : Cache) (some dsC4)
        = some (Except.ok 0, c2) ∧
      (∀ k, k ∉ dsC4.map Prod.fst →
        idxFind c2.entries k = idxFind ({ cacheA with maxSize := 0 } : Cache).entries k) ∧
      (∀ e d, heapFind ({ cacheA with maxSize := 0 } : Cache).heap e = some d →
        ∃ d2, c2.heapGet e = some d2 ∧ stripLinks d2 = stripLinks d) ∧
      (∀ kv ∈ dsC4, ∃ e d2, idxFind c2.entries kv.1 = some e ∧
        ({ cacheA with maxSize := 0 } : Cache).freshId ≤ e ∧
        c2.heapGet e = some d2 ∧
        stripLinks d2 = (kv.1, kv.2.value, kv.2.expiration, kv.2.relevantTimestamp)) ∧
      chain ≠ [] ∧ chain.Perm (c2.entries.map Prod.snd) ∧
      c2.tail = headOr chain none ∧ c2.head = lastOr chain none ∧
      (∃ p0 q0, seg c2 p0 chain q0 = true)) :=
  ⟨⟨by decide, by decide, by decide, by decide⟩,
    c9_amended_restore_merges_into_existing_index ({ cacheA with maxSize := 0 } : Cache)
      [0] dsC4 (by decide) (by decide) (by decide) (by decide)⟩

end Gocache
